import Mathlib

/-!
# Verification of dynarmic's x64 vector-emitter (`emit_x64_vector.cpp`)

This development shallowly embeds the per-lane semantics of the machine code
emitted by `src/backend/x64/emit_x64_vector.cpp` and proves the frozen claims
about it.  A 128-bit vector value is represented either as a single `Nat`
bit pattern (below `2^128`) or as a little-endian list of lane patterns,
depending on what the emitter under study manipulates.
-/

namespace Dynarmic

/-- Lane `i` of bit-width `w` of the 128-bit pattern `v` (little-endian). -/
def lane (w i v : Nat) : Nat := (v >>> (w * i)) % 2 ^ w

/-- Signed value of a `w`-bit pattern (two's complement). -/
def sToInt (w x : Nat) : Int :=
  if x < 2 ^ (w - 1) then (x : Int) else (x : Int) - 2 ^ w

/-- `w`-bit pattern of an integer (reduction modulo `2^w`). -/
def ofInt (w : Nat) (i : Int) : Nat := (i % (2 ^ w : Nat)).toNat

/-- Mnemonics emitted by the `VectorGetElement` lowerings. -/
inductive Instr
  | pextrb
  | pextrw
  | pextrd
  | pextrq
  | shr
  | pshufd
  | movd
  | movq
  | punpckhqdq
  deriving DecidableEq, Repr

/-- `EmitX64::EmitVectorGetElement8`: for immediate index 0 the value binding
is reused with no instruction emitted (the IR result, an 8-bit scalar, is the
low byte of the binding); otherwise SSE4.1 `pextrb`, or `pextrw` plus a `shr`
for odd indices. Returns the emitted instruction list and the GPR result. -/
def emitVectorGetElement8 (sse41 : Bool) (v index : Nat) : List Instr × Nat :=
  if index = 0 then
    ([], v % 2 ^ 8)
  else if sse41 then
    ([.pextrb], lane 8 index v)
  else if index % 2 = 1 then
    ([.pextrw, .shr], lane 16 (index / 2) v >>> 8)
  else
    ([.pextrw], lane 16 (index / 2) v)

/-- `EmitX64::EmitVectorGetElement16`: index 0 reuses the binding, otherwise
`pextrw`. -/
def emitVectorGetElement16 (v index : Nat) : List Instr × Nat :=
  if index = 0 then
    ([], v % 2 ^ 16)
  else
    ([.pextrw], lane 16 index v)

/-- `EmitX64::EmitVectorGetElement32`: index 0 reuses the binding; SSE4.1 uses
`pextrd`; else `pshufd` with the index as control (dword 0 of the result is
source dword `index % 4`) followed by `movd`. -/
def emitVectorGetElement32 (sse41 : Bool) (v index : Nat) : List Instr × Nat :=
  if index = 0 then
    ([], v % 2 ^ 32)
  else if sse41 then
    ([.pextrd], lane 32 index v)
  else
    ([.pshufd, .movd], lane 32 (index % 4) v)

/-- `EmitX64::EmitVectorGetElement64`: index 0 reuses the binding; otherwise
SSE4.1 emits `pextrq dest, source, 1` (the constant lane 1, whatever the
index), and the pre-SSE4.1 path emits `punpckhqdq` + `movq`, also lane 1. -/
def emitVectorGetElement64 (sse41 : Bool) (v index : Nat) : List Instr × Nat :=
  if index = 0 then
    ([], v % 2 ^ 64)
  else if sse41 then
    ([.pextrq], lane 64 1 v)
  else
    ([.punpckhqdq, .movq], lane 64 1 v)

theorem lane_zero (w v : Nat) : lane w 0 v = v % 2 ^ w := by
  simp [lane]

/-- C5: for every lane width `N ∈ {8,16,32,64}` and on both CPU-feature paths,
`GetElementN(v, 0)` emits no machine code (the existing value binding is
reused) and its result is lane 0 of `v`, zero-extended. -/
theorem getElement_index_zero (sse41 : Bool) (v : Nat) :
    emitVectorGetElement8 sse41 v 0 = ([], lane 8 0 v) ∧
    emitVectorGetElement16 v 0 = ([], lane 16 0 v) ∧
    emitVectorGetElement32 sse41 v 0 = ([], lane 32 0 v) ∧
    emitVectorGetElement64 sse41 v 0 = ([], lane 64 0 v) := by
  refine ⟨?_, ?_, ?_, ?_⟩ <;>
    simp [emitVectorGetElement8, emitVectorGetElement16, emitVectorGetElement32,
      emitVectorGetElement64, lane_zero]

/-- C10: `GetElement64` extracts lane 1 for every nonzero immediate index, on
both feature paths; hence it returns lane `imm` exactly for `imm ∈ {0, 1}`,
and for `imm ≥ 2` it returns lane 1 rather than lane `imm` (witnessed by the
vector `2^64`, whose lane 1 is 1 while every lane `imm ≥ 2` is 0). -/
theorem getElement64_nonzero_index_is_lane1 :
    (∀ (sse41 : Bool) (v imm : Nat), imm ≠ 0 →
      (emitVectorGetElement64 sse41 v imm).2 = lane 64 1 v) ∧
    (∀ (sse41 : Bool) (v imm : Nat), imm ≤ 1 →
      (emitVectorGetElement64 sse41 v imm).2 = lane 64 imm v) ∧
    (∀ (sse41 : Bool) (imm : Nat), 2 ≤ imm →
      (emitVectorGetElement64 sse41 (2 ^ 64) imm).2 ≠ lane 64 imm (2 ^ 64)) := by
  refine ⟨?_, ?_, ?_⟩
  · intro sse41 v imm h
    cases sse41 <;> simp [emitVectorGetElement64, h]
  · intro sse41 v imm h
    interval_cases imm
    · cases sse41 <;> simp [emitVectorGetElement64, lane_zero]
    · cases sse41 <;> simp [emitVectorGetElement64]
  · intro sse41 imm h
    have hres : (emitVectorGetElement64 sse41 (2 ^ 64) imm).2 = 1 := by
      have himm : imm ≠ 0 := by omega
      cases sse41 <;> simp [emitVectorGetElement64, himm, lane]
    have hlane : lane 64 imm (2 ^ 64) = 0 := by
      have : (2 : Nat) ^ 64 < 2 ^ (64 * imm) := by
        exact Nat.pow_lt_pow_right (by omega) (by omega)
      simp only [lane, Nat.shiftRight_eq_div_pow]
      rw [Nat.div_eq_of_lt (by exact_mod_cast this)]
      simp
    rw [hres, hlane]
    omega

/-- Witness for the hypotheses of `getElement64_nonzero_index_is_lane1`. -/
theorem getElement64_nonzero_index_is_lane1_witness :
    (emitVectorGetElement64 true (2 ^ 64 + 3) 1).2 = lane 64 1 (2 ^ 64 + 3) ∧
    (emitVectorGetElement64 false (2 ^ 64) 2).2 ≠ lane 64 2 (2 ^ 64) :=
  ⟨getElement64_nonzero_index_is_lane1.2.1 true (2 ^ 64 + 3) 1 (by decide),
   getElement64_nonzero_index_is_lane1.2.2 false 2 (by decide)⟩

/-! ## Saturation flag (`fpsr_qc`) updates -/

/-- The sites in `emit_x64_vector.cpp` at which emitted code touches the
`fpsr_qc` byte: `EmitOneArgumentFallbackWithSaturation` (line 96),
`EmitVectorSignedSaturatedAbs` (2726), the two
`SignedSaturatedDoublingMultiplyReturnHigh` emitters (2791, 2835),
`EmitVectorSignedSaturatedNarrowToSigned` (2882),
`EmitVectorSignedSaturatedNarrowToUnsigned` (2946) and
`EmitVectorSignedSaturatedNeg` (3066). -/
inductive QcSite
  | oneArgFallbackWithSaturation
  | signedSaturatedAbs
  | sdmulhReturnHigh16
  | sdmulhReturnHigh32
  | narrowToSigned
  | narrowToUnsigned
  | signedSaturatedNeg
  deriving DecidableEq, Repr

/-- The instruction emitted at each `QcSite` is
`or_ byte[r15 + offsetof_fpsr_qc], reg8`: a read-modify-write OR of the low
byte of a register into the flag byte.  `q` is the current flag byte, `b` the
register whose low byte is OR-ed in. -/
def qcEffect (_site : QcSite) (b q : Nat) : Nat := q ||| b % 2 ^ 8

/-- Flag byte after a block emits a sequence of saturation-flag updates. -/
def qcRun (updates : List (QcSite × Nat)) (q : Nat) : Nat :=
  updates.foldl (fun s u => qcEffect u.1 u.2 s) q

/-- C2: every access any emitted opcode performs on `fpsr_qc` is an OR of a
byte into the flag (never a direct write or clear), so across every sequence
of saturation-flag updates emitted in a block the flag byte is sticky: every
bit that is set stays set. -/
theorem qc_updates_are_or_and_sticky :
    (∀ (site : QcSite) (b q : Nat), qcEffect site b q = q ||| b % 2 ^ 8) ∧
    (∀ (updates : List (QcSite × Nat)) (q : Nat) (i : Nat),
      q.testBit i = true → (qcRun updates q).testBit i = true) := by
  refine ⟨fun _ _ _ => rfl, ?_⟩
  intro updates
  induction updates with
  | nil => intro q i h; simpa [qcRun] using h
  | cons u us ih =>
      intro q i h
      have : (qcEffect u.1 u.2 q).testBit i = true := by
        simp [qcEffect, Nat.testBit_or, h]
      simpa [qcRun, List.foldl_cons] using ih (qcEffect u.1 u.2 q) i this

/-- Witness for `qc_updates_are_or_and_sticky`: a set bit survives two
OR updates that themselves contribute nothing. -/
theorem qc_updates_are_or_and_sticky_witness :
    (qcRun [(QcSite.signedSaturatedNeg, 0), (QcSite.narrowToSigned, 2)] 1).testBit 0 = true :=
  qc_updates_are_or_and_sticky.2
    [(QcSite.signedSaturatedNeg, 0), (QcSite.narrowToSigned, 2)] 1 0 (by decide)

/-! ## `LogicalVShift` (per-lane dynamic shifts) -/

/-- The per-lane shift amount: the source casts the shift lane to `u8` and
then to `s8` (`static_cast<s8>(static_cast<u8>(y))`). -/
def s8val (y : Nat) : Int := sToInt 8 (y % 2 ^ 8)

/-- Arithmetic shift right of a signed value: C++ `>>` on the targeted
compilers is an arithmetic shift, i.e. floor division by `2^n` (which for a
positive divisor is Lean's `Int` division). -/
def ashr (x : Int) (n : Nat) : Int := x / 2 ^ n

/-- `LogicalVShift<T>` for signed `T` of bit width `w`, acting on lane bit
patterns.  Branch structure follows the template: `shift ≥ w → 0`;
`shift ≤ -w → x >> (w-1)`; `shift < 0 → x >> -shift` (arithmetic); else
unsigned left shift truncated back to `T` (modulo `2^w`). -/
def logicalVShiftS (w : Nat) (x y : Nat) : Nat :=
  let s : Int := s8val y
  if (w : Int) ≤ s then 0
  else if s ≤ -(w : Int) then ofInt w (ashr (sToInt w x) (w - 1))
  else if s < 0 then ofInt w (ashr (sToInt w x) (-s).toNat)
  else x * 2 ^ s.toNat % 2 ^ w

/-- `LogicalVShift<T>` for unsigned `T` of bit width `w`, on lane patterns:
`|shift| ≥ w → 0`; `shift < 0 → x >> -shift` (logical); else left shift
modulo `2^w`. -/
def logicalVShiftU (w : Nat) (x y : Nat) : Nat :=
  let s : Int := s8val y
  if s ≤ -(w : Int) ∨ (w : Int) ≤ s then 0
  else if s < 0 then x >>> (-s).toNat
  else x * 2 ^ s.toNat % 2 ^ w

/-- `EmitVectorLogicalVShift{S,U}N` lower through the two-argument scalar
fallback applying `LogicalVShift<T>` to each pair of lanes. -/
def emitVectorLogicalVShiftS (w : Nat) (a b : List Nat) : List Nat :=
  List.zipWith (logicalVShiftS w) a b

def emitVectorLogicalVShiftU (w : Nat) (a b : List Nat) : List Nat :=
  List.zipWith (logicalVShiftU w) a b

/-- C6: per-lane contract of `LogicalVShift{S,U}{8,16,32,64}`, with the shift
amount the sign-extended low byte of the shift lane: shifts of magnitude at
least the lane width give 0 for unsigned lanes; a signed lane with shift
`≥ w` gives 0 and with shift `≤ -w` gives pure sign propagation
(all-ones for negative lanes, 0 otherwise, i.e. `x >> (w-1)` arithmetic);
negative shifts in range shift right (arithmetic for signed, logical for
unsigned); non-negative shifts in range shift left, wrapping modulo `2^w`. -/
theorem logicalVShift_lane_contract (w x y : Nat)
    (hw : w = 8 ∨ w = 16 ∨ w = 32 ∨ w = 64) (hx : x < 2 ^ w) :
    (s8val y ≤ -(w : Int) ∨ (w : Int) ≤ s8val y → logicalVShiftU w x y = 0) ∧
    ((w : Int) ≤ s8val y → logicalVShiftS w x y = 0) ∧
    (s8val y ≤ -(w : Int) →
      logicalVShiftS w x y = if sToInt w x < 0 then 2 ^ w - 1 else 0) ∧
    (-(w : Int) < s8val y → s8val y < 0 →
      logicalVShiftS w x y = ofInt w (ashr (sToInt w x) (-s8val y).toNat) ∧
      logicalVShiftU w x y = x >>> (-s8val y).toNat) ∧
    (0 ≤ s8val y → s8val y < (w : Int) →
      logicalVShiftS w x y = x * 2 ^ (s8val y).toNat % 2 ^ w ∧
      logicalVShiftU w x y = x * 2 ^ (s8val y).toNat % 2 ^ w) := by
  have hs_range : -128 ≤ s8val y ∧ s8val y < 128 := by
    unfold s8val sToInt
    have := Nat.mod_lt y (show 0 < 2 ^ 8 by norm_num)
    split <;> omega
  refine ⟨?_, ?_, ?_, ?_, ?_⟩
  · intro h
    unfold logicalVShiftU
    rcases h with h | h <;> simp [h]
  · intro h
    unfold logicalVShiftS
    simp [h]
  · intro h
    have h1 : ¬ ((w : Int) ≤ s8val y) := by omega
    simp only [logicalVShiftS, h1, if_false, h, if_true]
    by_cases hneg : x < 2 ^ (w - 1) <;>
      simp [sToInt, hneg, ashr, ofInt] <;>
      rcases hw with rfl | rfl | rfl | rfl <;>
      · norm_num at hneg hx ⊢
        first
        | omega
        | (split <;> omega)
  · intro h1 h2
    have ha : ¬ ((w : Int) ≤ s8val y) := by omega
    have hb : ¬ (s8val y ≤ -(w : Int)) := by omega
    have hc : ¬ (s8val y ≤ -(w : Int) ∨ (w : Int) ≤ s8val y) := by omega
    simp [logicalVShiftS, logicalVShiftU, ha, hb, hc, h2]
  · intro h1 h2
    have ha : ¬ ((w : Int) ≤ s8val y) := by omega
    have hb : ¬ (s8val y ≤ -(w : Int)) := by omega
    have hc : ¬ (s8val y ≤ -(w : Int) ∨ (w : Int) ≤ s8val y) := by omega
    have hd : ¬ (s8val y < 0) := by omega
    simp [logicalVShiftS, logicalVShiftU, ha, hb, hc, hd]

/-- Witness for `logicalVShift_lane_contract`: width 16, lane `0x8001`
(negative), shift byte `0xF0` (= -16, saturating case). -/
theorem logicalVShift_lane_contract_witness :
    logicalVShiftS 16 0x8001 0xF0 = (if sToInt 16 0x8001 < 0 then 2 ^ 16 - 1 else 0) ∧
    logicalVShiftU 16 0x8001 0xF0 = 0 := by
  have h := logicalVShift_lane_contract 16 0x8001 0xF0 (by norm_num) (by norm_num)
  exact ⟨h.2.2.1 (by decide), h.1 (Or.inl (by decide))⟩

/-! ## `PolynomialMultiplyLong64` (carry-less multiplication) -/

/-- `PolynomialMultiply<u64, u64>`: for each set bit `i` of `lhs`, XOR in
`rhs << i`; the shift is a `u64` shift, so bits above bit 63 are lost. -/
def polynomialMultiply64 (lhs rhs : Nat) : Nat :=
  (List.range 64).foldl
    (fun res i => if lhs.testBit i then res ^^^ (rhs <<< i) % 2 ^ 64 else res) 0

/-- `handle_high_bits` from `EmitVectorPolynomialMultiplyLong64`: for each set
bit `i ∈ [1, 63]` of `lhs`, XOR in `rhs >> (64 - i)`. -/
def handleHighBits (lhs rhs : Nat) : Nat :=
  (List.range' 1 63).foldl
    (fun res i => if lhs.testBit i then res ^^^ rhs >>> (64 - i) else res) 0

/-- `EmitX64::EmitVectorPolynomialMultiplyLong64` (scalar fallback): result
lane 0 is the truncated carry-less product of the low 64-bit lanes, lane 1 is
its high half. -/
def emitVectorPolynomialMultiplyLong64 (a b : List Nat) : List Nat :=
  [polynomialMultiply64 (a.getD 0 0) (b.getD 0 0),
   handleHighBits (a.getD 0 0) (b.getD 0 0)]

/-- Modelled from the spec's words for the comparison: the full 128-bit
carry-less (GF(2)[x]) product — the XOR over every set bit `i` of `lhs` of
`rhs` shifted left by `i` with no truncation. -/
def clmul128Spec (lhs rhs : Nat) : Nat :=
  (List.range 64).foldl
    (fun res i => if lhs.testBit i then res ^^^ rhs <<< i else res) 0

theorem xor_mod_two_pow (x y n : Nat) :
    (x ^^^ y) % 2 ^ n = x % 2 ^ n ^^^ y % 2 ^ n := by
  apply Nat.eq_of_testBit_eq
  intro i
  by_cases h : i < n <;>
    simp [Nat.testBit_mod_two_pow, Nat.testBit_xor, h]

theorem xor_shiftRight (x y n : Nat) :
    (x ^^^ y) >>> n = x >>> n ^^^ y >>> n := by
  apply Nat.eq_of_testBit_eq
  intro i
  simp [Nat.testBit_shiftRight, Nat.testBit_xor]

theorem shiftLeft_shiftRight_64 (b i : Nat) (hi : i ≤ 64) :
    (b <<< i) >>> 64 = b >>> (64 - i) := by
  rw [Nat.shiftLeft_eq, Nat.shiftRight_eq_div_pow, Nat.shiftRight_eq_div_pow]
  have h : (2 : Nat) ^ 64 = 2 ^ (64 - i) * 2 ^ i := by
    rw [← pow_add]
    congr 1
    omega
  rw [h, Nat.mul_div_mul_right _ _ (Nat.pos_pow_of_pos i (by norm_num))]

theorem polyMul_low_invariant (a b : Nat) (l : List Nat) (acc : Nat) :
    l.foldl (fun res i => if a.testBit i then res ^^^ (b <<< i) % 2 ^ 64 else res)
        (acc % 2 ^ 64) =
      (l.foldl (fun res i => if a.testBit i then res ^^^ b <<< i else res) acc) % 2 ^ 64 := by
  induction l generalizing acc with
  | nil => rfl
  | cons i l ih =>
      simp only [List.foldl_cons]
      by_cases h : a.testBit i
      · simp only [h, if_true]
        rw [← xor_mod_two_pow, ih]
      · rw [if_neg h, if_neg h]
        exact ih acc

theorem polyMul_high_invariant (a b : Nat) (l : List Nat)
    (hl : ∀ i ∈ l, i ≤ 64) (acc : Nat) :
    l.foldl (fun res i => if a.testBit i then res ^^^ b >>> (64 - i) else res)
        (acc >>> 64) =
      (l.foldl (fun res i => if a.testBit i then res ^^^ b <<< i else res) acc) >>> 64 := by
  induction l generalizing acc with
  | nil => rfl
  | cons i l ih =>
      simp only [List.foldl_cons]
      have hi : i ≤ 64 := hl i (by simp)
      have hrest : ∀ j ∈ l, j ≤ 64 := fun j hj => hl j (by simp [hj])
      by_cases h : a.testBit i
      · simp only [h, if_true]
        rw [← shiftLeft_shiftRight_64 b i hi, ← xor_shiftRight, ih hrest]
      · rw [if_neg h, if_neg h]
        exact ih hrest acc

/-- C8: `PolynomialMultiplyLong64` computes the full 128-bit carry-less
product of the low 64-bit lanes: result lane 0 is its low 64 bits and result
lane 1 its high 64 bits. -/
theorem polynomialMultiplyLong64_is_clmul (a0 b0 : Nat) (a b : List Nat)
    (ha : a.getD 0 0 = a0) (hb : b.getD 0 0 = b0) (hb0 : b0 < 2 ^ 64) :
    emitVectorPolynomialMultiplyLong64 a b =
      [clmul128Spec a0 b0 % 2 ^ 64, clmul128Spec a0 b0 >>> 64] := by
  unfold emitVectorPolynomialMultiplyLong64
  rw [ha, hb]
  congr 1
  · -- low half
    unfold polynomialMultiply64 clmul128Spec
    have := polyMul_low_invariant a0 b0 (List.range 64) 0
    simpa using this
  · -- high half: peel off the i = 0 step of the full fold
    congr 1
    unfold handleHighBits clmul128Spec
    have hr : List.range 64 = 0 :: List.range' 1 63 := by
      rw [List.range_eq_range']
      rfl
    rw [hr, List.foldl_cons]
    have hstep : (if a0.testBit 0 then 0 ^^^ b0 <<< 0 else 0) >>> 64 = 0 := by
      by_cases h : a0.testBit 0 <;> simp [h, Nat.shiftRight_eq_div_pow] <;> omega
    have hl : ∀ i ∈ List.range' 1 63, i ≤ 64 := by
      intro i hi
      have := List.mem_range'.1 hi
      omega
    rw [← polyMul_high_invariant a0 b0 _ hl, hstep]

/-- Witness for `polynomialMultiplyLong64_is_clmul`: the product
`x^63 · (x^63 + 1)` needs both halves. -/
theorem polynomialMultiplyLong64_is_clmul_witness :
    emitVectorPolynomialMultiplyLong64 [2 ^ 63, 0] [2 ^ 63 + 1, 0] =
      [clmul128Spec (2 ^ 63) (2 ^ 63 + 1) % 2 ^ 64,
       clmul128Spec (2 ^ 63) (2 ^ 63 + 1) >>> 64] :=
  polynomialMultiplyLong64_is_clmul (2 ^ 63) (2 ^ 63 + 1) [2 ^ 63, 0]
    [2 ^ 63 + 1, 0] (by rfl) (by rfl) (by norm_num)

/-! ## `HalvingAddU` (unsigned halving add) -/

theorem and_mod_two_pow (x y n : Nat) :
    (x &&& y) % 2 ^ n = x % 2 ^ n &&& y % 2 ^ n := by
  apply Nat.eq_of_testBit_eq
  intro i
  by_cases h : i < n <;>
    simp [Nat.testBit_mod_two_pow, Nat.testBit_and, h]

theorem and_shiftRight (x y n : Nat) :
    (x &&& y) >>> n = x >>> n &&& y >>> n := by
  apply Nat.eq_of_testBit_eq
  intro i
  simp [Nat.testBit_shiftRight, Nat.testBit_and]

theorem add_eq_xor_add_two_and (x : Nat) : ∀ y : Nat, x + y = (x ^^^ y) + 2 * (x &&& y) := by
  induction x using Nat.strong_induction_on with
  | _ x ih =>
    intro y
    rcases Nat.eq_zero_or_pos x with rfl | hx
    · simp
    · have hrec := ih (x / 2) (Nat.div_lt_self hx (by norm_num)) (y / 2)
      have hxor2 : (x ^^^ y) / 2 = x / 2 ^^^ y / 2 := by
        have h := xor_shiftRight x y 1
        simpa [Nat.shiftRight_eq_div_pow] using h
      have hand2 : (x &&& y) / 2 = x / 2 &&& y / 2 := by
        have h := and_shiftRight x y 1
        simpa [Nat.shiftRight_eq_div_pow] using h
      have hxor1 : (x ^^^ y) % 2 = x % 2 ^^^ y % 2 := by
        have h := xor_mod_two_pow x y 1
        simpa using h
      have hand1 : (x &&& y) % 2 = x % 2 &&& y % 2 := by
        have h := and_mod_two_pow x y 1
        simpa using h
      rcases Nat.mod_two_eq_zero_or_one x with hx2 | hx2 <;>
        rcases Nat.mod_two_eq_zero_or_one y with hy2 | hy2 <;>
        · rw [hx2, hy2] at hxor1 hand1
          simp only [Nat.xor_self, Nat.zero_xor, Nat.xor_zero, Nat.and_self,
            Nat.zero_and, Nat.and_zero] at hxor1 hand1
          omega

/-- Per-lane semantics of the width-8/16 path of
`EmitVectorHalvingAddUnsigned`: `movdqa tmp, b; pavg tmp, a` (rounded
average), `pxor a, b`, `pand a, 0x01…01` (the lane's least significant bit),
`psub tmp, a` (wrapping lane subtract). -/
def halvingAddUnsignedNarrowLane (w x y : Nat) : Nat :=
  let tmp := (y + x + 1) / 2
  let carry := (x ^^^ y) &&& 1
  (tmp + 2 ^ w - carry) % 2 ^ w

/-- Per-lane semantics of the width-32 path: `pand tmp, a` (tmp holds `b`),
`pxor a, b`, `psrld a, 1`, `paddd tmp, a`. -/
def halvingAddUnsignedWideLane (x y : Nat) : Nat :=
  ((y &&& x) + (x ^^^ y) >>> 1) % 2 ^ 32

/-- `EmitVectorHalvingAddUnsigned` lane dispatch over `esize ∈ {8,16,32}`. -/
def emitVectorHalvingAddUnsigned (esize : Nat) (a b : List Nat) : List Nat :=
  match esize with
  | 8 => List.zipWith (halvingAddUnsignedNarrowLane 8) a b
  | 16 => List.zipWith (halvingAddUnsignedNarrowLane 16) a b
  | _ => List.zipWith halvingAddUnsignedWideLane a b

theorem zipWith_congr_of_mem {f g : Nat → Nat → Nat} :
    ∀ (a b : List Nat), (∀ x ∈ a, ∀ y ∈ b, f x y = g x y) →
      List.zipWith f a b = List.zipWith g a b := by
  intro a
  induction a with
  | nil => intro b _; rfl
  | cons x a ih =>
      intro b h
      cases b with
      | nil => rfl
      | cons y b =>
          simp only [List.zipWith_cons_cons]
          refine congrArg₂ _ (h x (by simp) y (by simp)) ?_
          exact ih b fun u hu v hv => h u (by simp [hu]) v (by simp [hv])

theorem halvingAddU_narrow_lane_exact (w x y : Nat)
    (hw : w = 8 ∨ w = 16) (hx : x < 2 ^ w) (hy : y < 2 ^ w) :
    halvingAddUnsignedNarrowLane w x y = (x + y) / 2 := by
  unfold halvingAddUnsignedNarrowLane
  have hpar : (x ^^^ y) &&& 1 = (x + y) % 2 := by
    rw [Nat.and_one_is_mod]
    have h1 : (x ^^^ y) % 2 = x % 2 ^^^ y % 2 := by
      have h := xor_mod_two_pow x y 1
      simpa using h
    rcases Nat.mod_two_eq_zero_or_one x with hx2 | hx2 <;>
      rcases Nat.mod_two_eq_zero_or_one y with hy2 | hy2 <;>
      · rw [h1, hx2, hy2]
        norm_num
        omega
  rw [hpar]
  rcases hw with rfl | rfl <;> (norm_num at hx hy ⊢; omega)

theorem halvingAddU_wide_lane_exact (x y : Nat)
    (hx : x < 2 ^ 32) (hy : y < 2 ^ 32) :
    halvingAddUnsignedWideLane x y = (x + y) / 2 := by
  unfold halvingAddUnsignedWideLane
  have hsum := add_eq_xor_add_two_and x y
  rw [Nat.shiftRight_eq_div_pow, Nat.and_comm y x]
  norm_num at hx hy ⊢
  omega

/-- C9: `HalvingAddU{8,16,32}` computes, per unsigned lane, the exact
`(a + b) >> 1` (the sum taken without wrapping); in particular adding the
all-`0xFF` vector to the all-`0x01` vector with `HalvingAddU8` gives all
`0x80` lanes. -/
theorem halvingAddU_exact (esize : Nat) (a b : List Nat)
    (hes : esize = 8 ∨ esize = 16 ∨ esize = 32)
    (ha : ∀ x ∈ a, x < 2 ^ esize) (hb : ∀ y ∈ b, y < 2 ^ esize) :
    emitVectorHalvingAddUnsigned esize a b =
      List.zipWith (fun x y => (x + y) / 2) a b ∧
    emitVectorHalvingAddUnsigned 8 (List.replicate 16 0xFF) (List.replicate 16 0x01) =
      List.replicate 16 0x80 := by
  constructor
  · rcases hes with rfl | rfl | rfl
    · exact zipWith_congr_of_mem a b fun x hx y hy =>
        halvingAddU_narrow_lane_exact 8 x y (Or.inl rfl) (ha x hx) (hb y hy)
    · exact zipWith_congr_of_mem a b fun x hx y hy =>
        halvingAddU_narrow_lane_exact 16 x y (Or.inr rfl) (ha x hx) (hb y hy)
    · exact zipWith_congr_of_mem a b fun x hx y hy =>
        halvingAddU_wide_lane_exact x y (ha x hx) (hb y hy)
  · decide

/-- Witness for `halvingAddU_exact` at width 32. -/
theorem halvingAddU_exact_witness :
    emitVectorHalvingAddUnsigned 32 [0xFFFFFFFF, 7, 0, 1] [1, 8, 0, 2] =
      List.zipWith (fun x y => (x + y) / 2) [0xFFFFFFFF, 7, 0, 1] [1, 8, 0, 2] :=
  (halvingAddU_exact 32 [0xFFFFFFFF, 7, 0, 1] [1, 8, 0, 2]
    (by norm_num) (by decide) (by decide)).1

/-! ## Cross-path equivalence: `Equal64`, `MaxU16`, `Multiply64` -/

/-- `pcmpeq{b,w,d,q}` lane semantics: all-ones on equality, zero otherwise. -/
def pcmpeq (w x y : Nat) : Nat := if x = y then 2 ^ w - 1 else 0

/-- `pshufd dst, src, imm`: result dword `i` is source dword
`(imm >> 2i) & 3`, on the 4-dword view of a register. -/
def pshufd (imm : Nat) (s : List Nat) : List Nat :=
  (List.range 4).map fun i => s.getD (imm >>> (2 * i) % 4) 0

/-- Dword (32-bit lane) view of a list of quadword (64-bit) lanes. -/
def toDwords : List Nat → List Nat
  | [] => []
  | x :: r => x % 2 ^ 32 :: x / 2 ^ 32 :: toDwords r

/-- Reassemble quadword lanes from their dword view. -/
def fromDwords : List Nat → List Nat
  | lo :: hi :: r => (lo + 2 ^ 32 * hi) :: fromDwords r
  | _ => []

/-- SSE4.1 path of `EmitX64::EmitVectorEqual64`: `pcmpeqq`. -/
def equal64SSE41 (a b : List Nat) : List Nat := List.zipWith (pcmpeq 64) a b

/-- SSE2 path of `EmitX64::EmitVectorEqual64`: `pcmpeqd`;
`pshufd tmp, a, 0b10110001`; `pand a, tmp`. -/
def equal64SSE2 (a b : List Nat) : List Nat :=
  let d := List.zipWith (pcmpeq 32) (toDwords a) (toDwords b)
  let tmp := pshufd 0b10110001 d
  fromDwords (List.zipWith (fun x y => x &&& y) d tmp)

/-- `psubusw` lane semantics: unsigned saturating subtract. -/
def psubus (x y : Nat) : Nat := x - y

/-- `padd{b,w,d,q}` lane semantics: wrapping add. -/
def padd (w x y : Nat) : Nat := (x + y) % 2 ^ w

/-- SSE4.1 path of `EmitX64::EmitVectorMaxU16`: `pmaxuw`. -/
def maxU16SSE41 (a b : List Nat) : List Nat := List.zipWith (fun x y => max x y) a b

/-- SSE2 path of `EmitX64::EmitVectorMaxU16`: `psubusw a, b; paddw a, b`. -/
def maxU16SSE2 (a b : List Nat) : List Nat :=
  List.zipWith (padd 16) (List.zipWith psubus a b) b

/-- `vpmullq` lane semantics: product truncated to 64 bits. -/
def vpmullq (x y : Nat) : Nat := x * y % 2 ^ 64

/-- AVX-512DQ+VL path of `EmitX64::EmitVectorMultiply64`. -/
def multiply64AVX512 (a b : List Nat) : List Nat := List.zipWith vpmullq a b

/-- 64-bit `imul` semantics: the truncated two's-complement product. -/
def imul64 (x y : Nat) : Nat := ofInt 64 (sToInt 64 x * sToInt 64 y)

/-- SSE4.1 path of `EmitX64::EmitVectorMultiply64`: both lanes moved to GPRs
(`movq`/`pextrq`), multiplied with `imul`, reassembled with
`movq`/`pinsrq`. -/
def multiply64SSE41 (a b : List Nat) : List Nat :=
  [imul64 (a.getD 0 0) (b.getD 0 0), imul64 (a.getD 1 0) (b.getD 1 0)]

/-- `pmuludq` lane semantics: full 64-bit product of the low dwords. -/
def pmuludq (x y : Nat) : Nat := x % 2 ^ 32 * (y % 2 ^ 32)

/-- SSE2 path of `EmitX64::EmitVectorMultiply64`: the three-`pmuludq`
schoolbook (`tmp1 = a >> 32`, `tmp3 = b >> 32`, `tmp2 = lo(a)·lo(b)`,
`tmp3 = lo(b>>32)·lo(a)`, `b = lo(b)·lo(a>>32)`, `b += tmp3`, `b <<= 32`,
`tmp2 += b`). -/
def multiply64SSE2 (a b : List Nat) : List Nat :=
  let tmp1 := a.map (fun x => x >>> 32)
  let tmp3 := b.map (fun x => x >>> 32)
  let tmp2 := List.zipWith pmuludq a b
  let t3 := List.zipWith pmuludq tmp3 a
  let b2 := List.zipWith pmuludq b tmp1
  let s := List.zipWith (padd 64) b2 t3
  let sh := s.map (fun x => x * 2 ^ 32 % 2 ^ 64)
  List.zipWith (padd 64) tmp2 sh

theorem equal64_lane (x y : Nat) (hx : x < 2 ^ 64) (hy : y < 2 ^ 64) :
    (pcmpeq 32 (x % 2 ^ 32) (y % 2 ^ 32) &&& pcmpeq 32 (x / 2 ^ 32) (y / 2 ^ 32)) +
      2 ^ 32 * (pcmpeq 32 (x / 2 ^ 32) (y / 2 ^ 32) &&& pcmpeq 32 (x % 2 ^ 32) (y % 2 ^ 32)) =
    pcmpeq 64 x y := by
  unfold pcmpeq
  by_cases h1 : x % 2 ^ 32 = y % 2 ^ 32 <;> by_cases h2 : x / 2 ^ 32 = y / 2 ^ 32
  · have hxy : x = y := by omega
    rw [if_pos h1, if_pos h2, if_pos hxy]
    decide
  · have hxy : x ≠ y := by omega
    rw [if_pos h1, if_neg h2, if_neg hxy]
    decide
  · have hxy : x ≠ y := by omega
    rw [if_neg h1, if_pos h2, if_neg hxy]
    decide
  · have hxy : x ≠ y := by omega
    rw [if_neg h1, if_neg h2, if_neg hxy]
    decide

/-- C1 (part): the two lowerings of `Equal64` agree on every pair of
vectors. -/
theorem equal64_paths_agree (a0 a1 b0 b1 : Nat)
    (ha0 : a0 < 2 ^ 64) (ha1 : a1 < 2 ^ 64) (hb0 : b0 < 2 ^ 64) (hb1 : b1 < 2 ^ 64) :
    equal64SSE2 [a0, a1] [b0, b1] = equal64SSE41 [a0, a1] [b0, b1] := by
  show [(pcmpeq 32 (a0 % 2 ^ 32) (b0 % 2 ^ 32) &&& pcmpeq 32 (a0 / 2 ^ 32) (b0 / 2 ^ 32))
          + 2 ^ 32 * (pcmpeq 32 (a0 / 2 ^ 32) (b0 / 2 ^ 32) &&& pcmpeq 32 (a0 % 2 ^ 32) (b0 % 2 ^ 32)),
        (pcmpeq 32 (a1 % 2 ^ 32) (b1 % 2 ^ 32) &&& pcmpeq 32 (a1 / 2 ^ 32) (b1 / 2 ^ 32))
          + 2 ^ 32 * (pcmpeq 32 (a1 / 2 ^ 32) (b1 / 2 ^ 32) &&& pcmpeq 32 (a1 % 2 ^ 32) (b1 % 2 ^ 32))]
      = [pcmpeq 64 a0 b0, pcmpeq 64 a1 b1]
  rw [equal64_lane a0 b0 ha0 hb0, equal64_lane a1 b1 ha1 hb1]

theorem zipWith_zipWith_left (f : Nat → Nat → Nat) (g : Nat → Nat → Nat) :
    ∀ (a b : List Nat),
      List.zipWith f (List.zipWith g a b) b =
        List.zipWith (fun x y => f (g x y) y) a b := by
  intro a
  induction a with
  | nil => intro b; rfl
  | cons x a ih =>
      intro b
      cases b with
      | nil => rfl
      | cons y b => simpa using ih b

/-- C1 (part): the two lowerings of `MaxU16` agree lane-wise on every pair of
vectors of 16-bit lanes. -/
theorem maxU16_paths_agree (a b : List Nat)
    (ha : ∀ x ∈ a, x < 2 ^ 16) (hb : ∀ y ∈ b, y < 2 ^ 16) :
    maxU16SSE2 a b = maxU16SSE41 a b := by
  unfold maxU16SSE2 maxU16SSE41
  rw [zipWith_zipWith_left]
  exact zipWith_congr_of_mem a b fun x hx y hy => by
    have h1 := ha x hx
    have h2 := hb y hy
    simp only [padd, psubus]
    norm_num at h1 h2 ⊢
    omega

theorem ofInt_natCast_add_mul (w n : Nat) (k : Int) :
    ofInt w ((n : Int) + k * ((2 ^ w : Nat) : Int)) = n % 2 ^ w := by
  unfold ofInt
  rw [Int.add_mul_emod_self]
  norm_cast

theorem imul64_eq_mul_mod (x y : Nat) (hx : x < 2 ^ 64) (hy : y < 2 ^ 64) :
    imul64 x y = x * y % 2 ^ 64 := by
  unfold imul64 sToInt
  by_cases h1 : x < 2 ^ (64 - 1) <;> by_cases h2 : y < 2 ^ (64 - 1)
  · rw [if_pos h1, if_pos h2,
      show (x : Int) * y = ((x * y : Nat) : Int) + 0 * ((2 ^ 64 : Nat) : Int) by push_cast; ring]
    exact ofInt_natCast_add_mul 64 (x * y) 0
  · rw [if_pos h1, if_neg h2,
      show (x : Int) * ((y : Int) - 2 ^ 64)
          = ((x * y : Nat) : Int) + (-(x : Int)) * ((2 ^ 64 : Nat) : Int) by push_cast; ring]
    exact ofInt_natCast_add_mul 64 (x * y) (-(x : Int))
  · rw [if_neg h1, if_pos h2,
      show ((x : Int) - 2 ^ 64) * y
          = ((x * y : Nat) : Int) + (-(y : Int)) * ((2 ^ 64 : Nat) : Int) by push_cast; ring]
    exact ofInt_natCast_add_mul 64 (x * y) (-(y : Int))
  · rw [if_neg h1, if_neg h2,
      show ((x : Int) - 2 ^ 64) * ((y : Int) - 2 ^ 64)
          = ((x * y : Nat) : Int)
            + ((2 : Int) ^ 64 - (x : Int) - (y : Int)) * ((2 ^ 64 : Nat) : Int) by push_cast; ring]
    exact ofInt_natCast_add_mul 64 (x * y) ((2 : Int) ^ 64 - (x : Int) - (y : Int))

/-- The three-`pmuludq` schoolbook step, per lane. -/
theorem multiply64_sse2_lane (x y : Nat) (hx : x < 2 ^ 64) (hy : y < 2 ^ 64) :
    padd 64 (pmuludq x y) (padd 64 (pmuludq y (x >>> 32)) (pmuludq (y >>> 32) x) * 2 ^ 32 % 2 ^ 64) =
      x * y % 2 ^ 64 := by
  have hxs : x >>> 32 = x / 2 ^ 32 := by rw [Nat.shiftRight_eq_div_pow]
  have hys : y >>> 32 = y / 2 ^ 32 := by rw [Nat.shiftRight_eq_div_pow]
  have hxb : x / 2 ^ 32 < 2 ^ 32 := by omega
  have hyb : y / 2 ^ 32 < 2 ^ 32 := by omega
  have hxm : x / 2 ^ 32 % 2 ^ 32 = x / 2 ^ 32 := Nat.mod_eq_of_lt hxb
  have hym : y / 2 ^ 32 % 2 ^ 32 = y / 2 ^ 32 := Nat.mod_eq_of_lt hyb
  unfold padd pmuludq
  rw [hxs, hys, hxm, hym]
  set xl := x % 2 ^ 32 with hxl
  set xh := x / 2 ^ 32 with hxh
  set yl := y % 2 ^ 32 with hyl
  set yh := y / 2 ^ 32 with hyh
  have hxe : x = xl + 2 ^ 32 * xh := by rw [hxl, hxh]; omega
  have hye : y = yl + 2 ^ 32 * yh := by rw [hyl, hyh]; omega
  have key : x * y = xl * yl + (yl * xh + yh * xl) * 2 ^ 32 + 2 ^ 64 * (xh * yh) := by
    rw [hxe, hye]; ring
  calc (xl * yl + (yl * xh + yh * xl) % 2 ^ 64 * 2 ^ 32 % 2 ^ 64) % 2 ^ 64
      = (xl * yl + (yl * xh + yh * xl) * 2 ^ 32 % 2 ^ 64) % 2 ^ 64 := by
        rw [Nat.mul_mod, Nat.mod_mod_of_dvd _ (by norm_num), ← Nat.mul_mod]
    _ = (xl * yl + (yl * xh + yh * xl) * 2 ^ 32) % 2 ^ 64 := by
        conv_rhs => rw [Nat.add_mod]
        rw [Nat.add_mod, Nat.mod_mod]
    _ = (xl * yl + (yl * xh + yh * xl) * 2 ^ 32 + 2 ^ 64 * (xh * yh)) % 2 ^ 64 := by
        rw [Nat.add_mul_mod_self_left]
    _ = x * y % 2 ^ 64 := by rw [key]

/-- C1 (parts): the three lowerings of `Multiply64` agree on every pair of
vectors. -/
theorem multiply64_paths_agree (a0 a1 b0 b1 : Nat)
    (ha0 : a0 < 2 ^ 64) (ha1 : a1 < 2 ^ 64) (hb0 : b0 < 2 ^ 64) (hb1 : b1 < 2 ^ 64) :
    multiply64SSE41 [a0, a1] [b0, b1] = multiply64AVX512 [a0, a1] [b0, b1] ∧
    multiply64SSE2 [a0, a1] [b0, b1] = multiply64AVX512 [a0, a1] [b0, b1] := by
  constructor
  · show [imul64 a0 b0, imul64 a1 b1] = [vpmullq a0 b0, vpmullq a1 b1]
    rw [imul64_eq_mul_mod a0 b0 ha0 hb0, imul64_eq_mul_mod a1 b1 ha1 hb1]
    rfl
  · show [padd 64 (pmuludq a0 b0)
            (padd 64 (pmuludq b0 (a0 >>> 32)) (pmuludq (b0 >>> 32) a0) * 2 ^ 32 % 2 ^ 64),
          padd 64 (pmuludq a1 b1)
            (padd 64 (pmuludq b1 (a1 >>> 32)) (pmuludq (b1 >>> 32) a1) * 2 ^ 32 % 2 ^ 64)]
        = [vpmullq a0 b0, vpmullq a1 b1]
    rw [multiply64_sse2_lane a0 b0 ha0 hb0, multiply64_sse2_lane a1 b1 ha1 hb1]
    rfl

/-- C1: for the vector opcodes carrying several CPU-feature-gated lowerings
that the claim cites — `Equal64` (`pcmpeqq` versus the
`pcmpeqd`/`pshufd`/`pand` emulation), `MaxU16` (`pmaxuw` versus the
`psubusw`/`paddw` emulation) and `Multiply64` (`vpmullq` versus the
`pextrq`/`imul` path versus the three-`pmuludq` schoolbook) — every pair of
128-bit input vectors produces the same result bit pattern on every
alternative lowering. -/
theorem crossPath_equivalence (a0 a1 b0 b1 : Nat) (a b : List Nat)
    (ha0 : a0 < 2 ^ 64) (ha1 : a1 < 2 ^ 64) (hb0 : b0 < 2 ^ 64) (hb1 : b1 < 2 ^ 64)
    (ha : ∀ x ∈ a, x < 2 ^ 16) (hb : ∀ y ∈ b, y < 2 ^ 16) :
    equal64SSE2 [a0, a1] [b0, b1] = equal64SSE41 [a0, a1] [b0, b1] ∧
    maxU16SSE2 a b = maxU16SSE41 a b ∧
    multiply64SSE41 [a0, a1] [b0, b1] = multiply64AVX512 [a0, a1] [b0, b1] ∧
    multiply64SSE2 [a0, a1] [b0, b1] = multiply64AVX512 [a0, a1] [b0, b1] :=
  ⟨equal64_paths_agree a0 a1 b0 b1 ha0 ha1 hb0 hb1,
   maxU16_paths_agree a b ha hb,
   (multiply64_paths_agree a0 a1 b0 b1 ha0 ha1 hb0 hb1).1,
   (multiply64_paths_agree a0 a1 b0 b1 ha0 ha1 hb0 hb1).2⟩

/-- Witness for `crossPath_equivalence`: spec scenario 1 (`Equal64` on equal
vectors) together with a `MaxU16`/`Multiply64` input pair. -/
theorem crossPath_equivalence_witness :
    equal64SSE2 [0x0807060504030201, 0x100F0E0D0C0B0A09]
        [0x0807060504030201, 0x100F0E0D0C0B0A09] =
      equal64SSE41 [0x0807060504030201, 0x100F0E0D0C0B0A09]
        [0x0807060504030201, 0x100F0E0D0C0B0A09] ∧
    maxU16SSE2 [0xFFFF, 0, 5, 0x8000] [1, 2, 4, 0x7FFF] =
      maxU16SSE41 [0xFFFF, 0, 5, 0x8000] [1, 2, 4, 0x7FFF] ∧
    multiply64SSE41 [0x0807060504030201, 0x100F0E0D0C0B0A09]
        [0x0807060504030201, 0x100F0E0D0C0B0A09] =
      multiply64AVX512 [0x0807060504030201, 0x100F0E0D0C0B0A09]
        [0x0807060504030201, 0x100F0E0D0C0B0A09] ∧
    multiply64SSE2 [0x0807060504030201, 0x100F0E0D0C0B0A09]
        [0x0807060504030201, 0x100F0E0D0C0B0A09] =
      multiply64AVX512 [0x0807060504030201, 0x100F0E0D0C0B0A09]
        [0x0807060504030201, 0x100F0E0D0C0B0A09] :=
  crossPath_equivalence 0x0807060504030201 0x100F0E0D0C0B0A09
    0x0807060504030201 0x100F0E0D0C0B0A09
    [0xFFFF, 0, 5, 0x8000] [1, 2, 4, 0x7FFF]
    (by norm_num) (by norm_num) (by norm_num) (by norm_num) (by decide) (by decide)

/-! ## `pmovmskb` / `test` machinery shared by the saturation-flag emitters -/

/-- Little-endian byte list of a `8k`-bit lane. -/
def laneBytes (k x : Nat) : List Nat :=
  (List.range k).map fun j => x / 2 ^ (8 * j) % 2 ^ 8

/-- Byte view of a vector of lanes of `8k` bits each. -/
def vecBytes (k : Nat) : List Nat → List Nat
  | [] => []
  | x :: r => laneBytes k x ++ vecBytes k r

/-- `pmovmskb`: bit `i` of the result is the most significant bit of byte
`i`. -/
def pmovmskb : List Nat → Nat
  | [] => 0
  | b :: r => (if 2 ^ 7 ≤ b then 1 else 0) + 2 * pmovmskb r

/-- The repeated test mask selecting the top `pmovmskb` bit of each of `n`
lanes of `k` bytes. -/
def maskRep (k : Nat) : Nat → Nat
  | 0 => 0
  | n + 1 => 2 ^ (k - 1) + 2 ^ k * maskRep k n

theorem pmovmskb_append (l r : List Nat) :
    pmovmskb (l ++ r) = pmovmskb l + 2 ^ l.length * pmovmskb r := by
  induction l with
  | nil => simp [pmovmskb]
  | cons b l ih =>
      show (if 2 ^ 7 ≤ b then 1 else 0) + 2 * pmovmskb (l ++ r) = _
      rw [ih, List.length_cons]
      show _ = (if 2 ^ 7 ≤ b then 1 else 0) + 2 * pmovmskb l + 2 ^ (l.length + 1) * pmovmskb r
      ring

theorem pmovmskb_lt (l : List Nat) : pmovmskb l < 2 ^ l.length := by
  induction l with
  | nil => simp [pmovmskb]
  | cons b l ih =>
      simp only [pmovmskb, List.length_cons]
      rcases em (2 ^ 7 ≤ b) with h | h
      · rw [if_pos h, pow_succ]; omega
      · rw [if_neg h, pow_succ]; omega

theorem pmovmskb_laneBytes_of_lt (k x : Nat)
    (h : ∀ j < k, x / 2 ^ (8 * j) % 2 ^ 8 < 2 ^ 7) :
    pmovmskb (laneBytes k x) = 0 := by
  induction k with
  | zero => rfl
  | succ k ih =>
      have hlen : (laneBytes k x).length = k := by simp [laneBytes]
      have : laneBytes (k + 1) x = laneBytes k x ++ [x / 2 ^ (8 * k) % 2 ^ 8] := by
        simp [laneBytes, List.range_succ]
      rw [this, pmovmskb_append, ih (fun j hj => h j (by omega)), hlen]
      have hk := h k (by omega)
      have hone : pmovmskb [x / 2 ^ (8 * k) % 2 ^ 8] = 0 := by
        simp only [pmovmskb]
        rw [if_neg (by omega)]
      rw [hone]
      simp

theorem pmovmskb_laneBytes_of_ge (k x : Nat)
    (h : ∀ j < k, 2 ^ 7 ≤ x / 2 ^ (8 * j) % 2 ^ 8) :
    pmovmskb (laneBytes k x) = 2 ^ k - 1 := by
  induction k with
  | zero => rfl
  | succ k ih =>
      have hlen : (laneBytes k x).length = k := by simp [laneBytes]
      have : laneBytes (k + 1) x = laneBytes k x ++ [x / 2 ^ (8 * k) % 2 ^ 8] := by
        simp [laneBytes, List.range_succ]
      rw [this, pmovmskb_append, ih (fun j hj => h j (by omega)), hlen]
      have hk := h k (by omega)
      have hone : pmovmskb [x / 2 ^ (8 * k) % 2 ^ 8] = 1 := by
        simp only [pmovmskb]
        rw [if_pos hk]
      rw [hone]
      have hp : (0 : Nat) < 2 ^ k := Nat.pos_pow_of_pos k (by norm_num)
      rw [pow_succ]
      omega

/-- Every byte of the all-ones lane is `0xFF`. -/
theorem ones_byte (k j : Nat) (hj : j < k) :
    (2 ^ (8 * k) - 1) / 2 ^ (8 * j) % 2 ^ 8 = 2 ^ 8 - 1 := by
  have hsplit : (2 : Nat) ^ (8 * k) = 2 ^ (8 * j) * 2 ^ (8 * (k - j)) := by
    rw [← pow_add]
    congr 1
    omega
  have hAp : (0 : Nat) < 2 ^ (8 * j) := Nat.pos_pow_of_pos _ (by norm_num)
  have hBp : (0 : Nat) < 2 ^ (8 * (k - j)) := Nat.pos_pow_of_pos _ (by norm_num)
  have hB : (2 : Nat) ^ (8 * (k - j)) = (2 ^ (8 * (k - j)) - 1) + 1 := by omega
  have hprod : (2 : Nat) ^ (8 * j) * 2 ^ (8 * (k - j))
      = 2 ^ (8 * j) * (2 ^ (8 * (k - j)) - 1) + 2 ^ (8 * j) := by
    conv_lhs => rw [hB]
    rw [Nat.mul_add, Nat.mul_one]
  have hdecomp : (2 : Nat) ^ (8 * k) - 1
      = (2 ^ (8 * j) - 1) + 2 ^ (8 * j) * (2 ^ (8 * (k - j)) - 1) := by
    rw [hsplit]
    omega
  have hdiv : (2 ^ (8 * k) - 1) / 2 ^ (8 * j) = 2 ^ (8 * (k - j)) - 1 := by
    rw [hdecomp, Nat.add_mul_div_left _ _ hAp, Nat.div_eq_of_lt (by omega)]
    omega
  rw [hdiv]
  have h1 : 1 ≤ k - j := by omega
  have hsplit2 : (2 : Nat) ^ (8 * (k - j)) = 2 ^ 8 * 2 ^ (8 * (k - j) - 8) := by
    rw [← pow_add]
    congr 1
    omega
  have hCp : (0 : Nat) < 2 ^ (8 * (k - j) - 8) := Nat.pos_pow_of_pos _ (by norm_num)
  rw [hsplit2]
  omega

/-- The `a + 2^k·A` digit-split behaviour of `testBit`. -/
theorem testBit_add_two_pow_mul (k a A i : Nat) (ha : a < 2 ^ k) :
    (a + 2 ^ k * A).testBit i =
      if i < k then a.testBit i else A.testBit (i - k) := by
  rcases Nat.lt_or_ge i k with h | h
  · rw [if_pos h]
    have h1 : (a + 2 ^ k * A) % 2 ^ k = a := by
      rw [Nat.add_mul_mod_self_left, Nat.mod_eq_of_lt ha]
    have h2 := Nat.testBit_mod_two_pow (a + 2 ^ k * A) k i
    rw [h1] at h2
    rw [h2]
    simp [h]
  · rw [if_neg (by omega)]
    have h1 : (a + 2 ^ k * A) >>> k = A := by
      rw [Nat.shiftRight_eq_div_pow]
      rw [Nat.add_mul_div_left _ _ (Nat.pos_pow_of_pos k (by norm_num)),
        Nat.div_eq_of_lt ha]
      omega
    have h2 : ((a + 2 ^ k * A) >>> k).testBit (i - k)
        = (a + 2 ^ k * A).testBit (k + (i - k)) := Nat.testBit_shiftRight _
    rw [h1] at h2
    rw [h2]
    congr 1
    omega

theorem and_digit_split (k a b A B : Nat) (ha : a < 2 ^ k) (hb : b < 2 ^ k) :
    (a + 2 ^ k * A) &&& (b + 2 ^ k * B) = (a &&& b) + 2 ^ k * (A &&& B) := by
  have hab : a &&& b < 2 ^ k := by
    calc a &&& b ≤ a := Nat.and_le_left
    _ < 2 ^ k := ha
  apply Nat.eq_of_testBit_eq
  intro i
  rw [Nat.testBit_and, testBit_add_two_pow_mul k a A i ha,
    testBit_add_two_pow_mul k b B i hb,
    testBit_add_two_pow_mul k (a &&& b) (A &&& B) i hab]
  by_cases hik : i < k <;> simp [hik]

/-- The key `pmovmskb`+`test` fact: over lanes that are each all-zeros or
all-ones (compare results), testing the mask that selects the top byte of
each lane is nonzero exactly when some lane is all-ones. -/
theorem movmsk_test (k : Nat) (hk : 0 < k) (cmp : List Nat)
    (hcmp : ∀ c ∈ cmp, c = 0 ∨ c = 2 ^ (8 * k) - 1) :
    (pmovmskb (vecBytes k cmp) &&& maskRep k cmp.length ≠ 0) ↔
      ∃ c ∈ cmp, c ≠ 0 := by
  induction cmp with
  | nil => simp [vecBytes, pmovmskb, maskRep]
  | cons c rest ih =>
      have hc := hcmp c (by simp)
      have hrest : ∀ x ∈ rest, x = 0 ∨ x = 2 ^ (8 * k) - 1 :=
        fun x hx => hcmp x (by simp [hx])
      have hlen : (laneBytes k c).length = k := by simp [laneBytes]
      have hheadlt : pmovmskb (laneBytes k c) < 2 ^ k := by
        have := pmovmskb_lt (laneBytes k c)
        rwa [hlen] at this
      have hmaskhead : (2 : Nat) ^ (k - 1) < 2 ^ k := Nat.pow_lt_pow_right (by norm_num) (by omega)
      have hsplit : pmovmskb (vecBytes k (c :: rest)) &&& maskRep k (c :: rest).length
          = (pmovmskb (laneBytes k c) &&& 2 ^ (k - 1))
            + 2 ^ k * (pmovmskb (vecBytes k rest) &&& maskRep k rest.length) := by
        show pmovmskb (laneBytes k c ++ vecBytes k rest) &&& (2 ^ (k - 1) + 2 ^ k * maskRep k rest.length) = _
        rw [pmovmskb_append, hlen,
          and_digit_split k _ _ _ _ hheadlt hmaskhead]
      rw [hsplit]
      have hpos : (0 : Nat) < 2 ^ k := Nat.pos_pow_of_pos k (by norm_num)
      rcases hc with hc0 | hc1
      · subst hc0
        have hz : pmovmskb (laneBytes k 0) = 0 :=
          pmovmskb_laneBytes_of_lt k 0 (fun j _ => by simp)
        rw [hz]
        have : (0 : Nat) &&& 2 ^ (k - 1) = 0 := Nat.zero_and _
        rw [this]
        constructor
        · intro h
          have hr : pmovmskb (vecBytes k rest) &&& maskRep k rest.length ≠ 0 := by
            intro h0
            rw [h0] at h
            simp at h
          exact (ih hrest).1 hr |>.imp fun x hx => ⟨by simp [hx.1], hx.2⟩
        · rintro ⟨x, hx, hxne⟩
          have hx' : x ∈ rest := by
            rcases List.mem_cons.1 hx with rfl | h
            · exact absurd rfl hxne
            · exact h
          have hr := (ih hrest).2 ⟨x, hx', hxne⟩
          intro h0
          have h0' : 2 ^ k * (pmovmskb (vecBytes k rest) &&& maskRep k rest.length) = 0 := by
            omega
          rcases Nat.mul_eq_zero.1 h0' with hcon | hx0
          · exact absurd hcon (by positivity)
          · exact hr hx0
      · subst hc1
        have ho : pmovmskb (laneBytes k (2 ^ (8 * k) - 1)) = 2 ^ k - 1 := by
          apply pmovmskb_laneBytes_of_ge
          intro j hj
          rw [ones_byte k j hj]
          norm_num
        rw [ho]
        have hand : (2 ^ k - 1) &&& 2 ^ (k - 1) = 2 ^ (k - 1) := by
          apply Nat.eq_of_testBit_eq
          intro i
          rw [Nat.testBit_and, Nat.testBit_two_pow_sub_one, Nat.testBit_two_pow]
          by_cases hik : k - 1 = i
          · subst hik
            simp [show k - 1 < k by omega]
          · simp [hik]
        rw [hand]
        have hne : 2 ^ (k - 1) + 2 ^ k * (pmovmskb (vecBytes k rest) &&& maskRep k rest.length) ≠ 0 := by
          have : (0:Nat) < 2 ^ (k - 1) := Nat.pos_pow_of_pos _ (by norm_num)
          omega
        simp only [hne, ne_eq, not_false_iff, true_iff]
        refine ⟨2 ^ (8 * k) - 1, by simp, ?_⟩
        have hbig : (2 : Nat) ^ 8 ≤ 2 ^ (8 * k) := Nat.pow_le_pow_right (by norm_num) (by omega)
        omega

/-! ## Saturation contracts: `SignedSaturatedAbs` and `SignedSaturatedNeg` -/

/-- The INT_MIN lane constant of width `w` (the source's `0x80…` `MConst`
masks). -/
def minPat (w : Nat) : Nat := 2 ^ (w - 1)

/-- The `test` immediates applied to the `pmovmskb` result: one bit per lane
(`0xFFFF`, `0b1010…`, `0b1000'1000…`, `0b10000000'10000000`). -/
def qcTestMask (w : Nat) : Nat :=
  match w with
  | 8 => 0xFFFF
  | 16 => 0xAAAA
  | 32 => 0x8888
  | _ => 0x8080

/-- The byte OR-ed into `fpsr_qc` by the SIMD paths of
`EmitVectorSignedSaturatedAbs` and `EmitVectorSignedSaturatedNeg`: `pcmpeq`
each original lane against the INT_MIN constant, `pmovmskb`, `test` with the
per-width mask, `setnz`. -/
def satMinQcByte (w : Nat) (xs : List Nat) : Nat :=
  let cmp := xs.map fun x => pcmpeq w x (minPat w)
  if pmovmskb (vecBytes (w / 8) cmp) &&& qcTestMask w ≠ 0 then 1 else 0

/-- Signed clamp to the representable range of a `w`-bit lane. -/
def clampS (w : Nat) (v : Int) : Int :=
  if v < -(2 ^ (w - 1)) then -(2 ^ (w - 1))
  else if (2 ^ (w - 1) - 1 : Int) < v then 2 ^ (w - 1) - 1
  else v

/-- Unsigned clamp to `[0, 2^w - 1]`. -/
def clampU (w : Nat) (v : Int) : Int :=
  if v < 0 then 0
  else if ((2 ^ w - 1 : Int)) < v then 2 ^ w - 1
  else v

/-- Exact (unclamped) per-lane value of `SignedSaturatedAbs`. -/
def absExact (w : Nat) (x : Nat) : Int := |sToInt w x|

/-- Exact per-lane value of `SignedSaturatedNeg`. -/
def negExact (w : Nat) (x : Nat) : Int := -sToInt w x

/-- Scalar fallback of `EmitVectorSignedSaturatedAbs64`: lanes equal to
INT_MIN produce INT_MAX and set the flag, others `std::abs`. -/
def satAbs64Fallback (xs : List Nat) : List Nat × Nat :=
  (xs.map fun x =>
      if x = 0x8000000000000000 then 0x7FFFFFFFFFFFFFFF else ofInt 64 |sToInt 64 x|,
   if xs.any fun x => x = 0x8000000000000000 then 1 else 0)

/-- Scalar fallback of `EmitVectorSignedSaturatedNeg64`. -/
def satNeg64Fallback (xs : List Nat) : List Nat × Nat :=
  (xs.map fun x =>
      if x = 0x8000000000000000 then 0x7FFFFFFFFFFFFFFF else ofInt 64 (-sToInt 64 x),
   if xs.any fun x => x = 0x8000000000000000 then 1 else 0)

theorem sToInt_bounds (w x : Nat) (hw : 0 < w) (hx : x < 2 ^ w) :
    -(2 ^ (w - 1) : Int) ≤ sToInt w x ∧ sToInt w x < 2 ^ (w - 1) := by
  have h2w : (2 : Nat) ^ w = 2 * 2 ^ (w - 1) := by
    conv_lhs => rw [show w = (w - 1) + 1 by omega]
    rw [pow_succ]
    ring
  have hxI : (x : Int) < 2 * 2 ^ (w - 1) := by
    have := hx
    rw [h2w] at this
    exact_mod_cast this
  have h2wI : ((2 : Int)) ^ w = 2 * 2 ^ (w - 1) := by
    conv_lhs => rw [show w = (w - 1) + 1 by omega]
    rw [pow_succ]
    ring
  unfold sToInt
  split <;> rename_i h
  · have : (x : Int) < 2 ^ (w - 1) := by exact_mod_cast h
    constructor <;> omega
  · have : ¬ ((x : Int) < 2 ^ (w - 1)) := by exact_mod_cast h
    rw [h2wI]
    constructor <;> omega

theorem abs_saturates_iff (w x : Nat) (hw : 0 < w) (hx : x < 2 ^ w) :
    clampS w (absExact w x) ≠ absExact w x ↔ x = minPat w := by
  have h2w : (2 : Nat) ^ w = 2 * 2 ^ (w - 1) := by
    conv_lhs => rw [show w = (w - 1) + 1 by omega]
    rw [pow_succ]
    ring
  have hMp : (0 : Int) < 2 ^ (w - 1) := by positivity
  have hxI : (x : Int) < 2 * 2 ^ (w - 1) := by
    have := hx
    rw [h2w] at this
    exact_mod_cast this
  have hmin : (minPat w : Int) = 2 ^ (w - 1) := by
    unfold minPat
    push_cast
    ring
  have hiff : x = minPat w ↔ (x : Int) = 2 ^ (w - 1) := by
    constructor
    · intro h
      rw [h, hmin]
    · intro h
      have : (x : Int) = (minPat w : Int) := by rw [hmin, h]
      exact_mod_cast this
  rw [hiff]
  unfold clampS absExact sToInt
  rcases em (x < 2 ^ (w - 1)) with h | h
  · have hxs : (x : Int) < 2 ^ (w - 1) := by exact_mod_cast h
    rw [if_pos h, abs_of_nonneg (by positivity)]
    split_ifs <;> constructor <;> intro <;> omega
  · have hxs : ¬ ((x : Int) < 2 ^ (w - 1)) := by exact_mod_cast h
    rw [if_neg h]
    have h2wI : ((2 : Int)) ^ w = 2 * 2 ^ (w - 1) := by
      conv_lhs => rw [show w = (w - 1) + 1 by omega]
      rw [pow_succ]
      ring
    have habs : |(x : Int) - 2 ^ w| = 2 ^ w - x := by
      rw [abs_of_nonpos (by rw [h2wI]; omega)]
      ring
    rw [habs, h2wI]
    split_ifs <;> constructor <;> intro <;> omega

theorem neg_saturates_iff (w x : Nat) (hw : 0 < w) (hx : x < 2 ^ w) :
    clampS w (negExact w x) ≠ negExact w x ↔ x = minPat w := by
  have h2w : (2 : Nat) ^ w = 2 * 2 ^ (w - 1) := by
    conv_lhs => rw [show w = (w - 1) + 1 by omega]
    rw [pow_succ]
    ring
  have hMp : (0 : Int) < 2 ^ (w - 1) := by positivity
  have hxI : (x : Int) < 2 * 2 ^ (w - 1) := by
    have := hx
    rw [h2w] at this
    exact_mod_cast this
  have hmin : (minPat w : Int) = 2 ^ (w - 1) := by
    unfold minPat
    push_cast
    ring
  have hiff : x = minPat w ↔ (x : Int) = 2 ^ (w - 1) := by
    constructor
    · intro h
      rw [h, hmin]
    · intro h
      have : (x : Int) = (minPat w : Int) := by rw [hmin, h]
      exact_mod_cast this
  rw [hiff]
  unfold clampS negExact sToInt
  have h2wI : ((2 : Int)) ^ w = 2 * 2 ^ (w - 1) := by
    conv_lhs => rw [show w = (w - 1) + 1 by omega]
    rw [pow_succ]
    ring
  rcases em (x < 2 ^ (w - 1)) with h | h
  · have hxs : (x : Int) < 2 ^ (w - 1) := by exact_mod_cast h
    rw [if_pos h]
    split_ifs <;> constructor <;> intro <;> omega
  · have hxs : ¬ ((x : Int) < 2 ^ (w - 1)) := by exact_mod_cast h
    rw [if_neg h, h2wI]
    split_ifs <;> constructor <;> intro <;> omega

theorem satMinQcByte_ne_iff (w : Nat) (hw : w = 8 ∨ w = 16 ∨ w = 32 ∨ w = 64)
    (xs : List Nat) (hlen : xs.length = 128 / w) :
    satMinQcByte w xs ≠ 0 ↔ ∃ x ∈ xs, x = minPat w := by
  have hk : 0 < w / 8 := by rcases hw with rfl | rfl | rfl | rfl <;> norm_num
  have h8k : 8 * (w / 8) = w := by rcases hw with rfl | rfl | rfl | rfl <;> norm_num
  have hmask : qcTestMask w = maskRep (w / 8) (xs.map fun x => pcmpeq w x (minPat w)).length := by
    rw [List.length_map, hlen]
    rcases hw with rfl | rfl | rfl | rfl <;> rfl
  have hcmp : ∀ c ∈ xs.map fun x => pcmpeq w x (minPat w),
      c = 0 ∨ c = 2 ^ (8 * (w / 8)) - 1 := by
    intro c hc
    rcases List.mem_map.1 hc with ⟨x, _, rfl⟩
    unfold pcmpeq
    rw [h8k]
    split
    · right; rfl
    · left; rfl
  have htest := movmsk_test (w / 8) hk (xs.map fun x => pcmpeq w x (minPat w)) hcmp
  unfold satMinQcByte
  simp only
  rw [hmask]
  by_cases hc : pmovmskb (vecBytes (w / 8) (xs.map fun x => pcmpeq w x (minPat w))) &&&
      maskRep (w / 8) (xs.map fun x => pcmpeq w x (minPat w)).length ≠ 0
  · rw [if_pos hc]
    constructor
    · intro _
      rcases htest.1 hc with ⟨c, hcm, hcne⟩
      rcases List.mem_map.1 hcm with ⟨x, hx, rfl⟩
      refine ⟨x, hx, ?_⟩
      by_contra hne
      apply hcne
      unfold pcmpeq
      rw [if_neg hne]
    · intro _
      exact one_ne_zero
  · rw [if_neg hc]
    constructor
    · intro h
      exact absurd rfl h
    · rintro ⟨x, hx, rfl⟩
      exfalso
      apply hc
      apply htest.2
      refine ⟨pcmpeq w (minPat w) (minPat w), List.mem_map.2 ⟨minPat w, hx, rfl⟩, ?_⟩
      unfold pcmpeq
      rw [if_pos rfl]
      have hge : (2 : Nat) ^ 8 ≤ 2 ^ w := Nat.pow_le_pow_right (by norm_num)
        (by rcases hw with rfl | rfl | rfl | rfl <;> norm_num)
      omega

/-! ## Saturating narrows -/

/-- 128-bit value of a little-endian list of `w`-bit lanes. -/
def fromLanes (w : Nat) : List Nat → Nat
  | [] => 0
  | x :: r => x + 2 ^ w * fromLanes w r

/-- `movmskps`: the sign bits of the four dwords. -/
def movmskps : List Nat → Nat
  | [] => 0
  | d :: r => (if 2 ^ 31 ≤ d then 1 else 0) + 2 * movmskps r

/-- The saturation test shared by the narrowing emitters: on SSE4.1
`pxor reconstructed, src` then `ptest` (zero iff equal), `setnz`; otherwise
`pcmpeqd`, `movmskps`, `cmp 0xF`, `setnz`. `v` and `s` are the 128-bit
values of the reconstruction and of the source. -/
def narrowQc (sse41 : Bool) (v s : Nat) : Nat :=
  if sse41 then
    if v ^^^ s = 0 then 0 else 1
  else
    let cmp := (List.range 4).map fun i => pcmpeq 32 (lane 32 i v) (lane 32 i s)
    if movmskps cmp = 0xF then 0 else 1

/-- `psra{w,d}` lane semantics: arithmetic shift right (floor division of the
signed value). -/
def psra (w n x : Nat) : Nat := ofInt w (sToInt w x / 2 ^ n)

/-- `EmitVectorSignedSaturatedNarrowToSigned`, original element size 16:
`packsswb dest, dest` saturates each word to `s8`; `psraw src, 15` then
`packsswb` build the sign bytes; `punpcklbw dest, sign` interleaves them, so
reconstructed word `i` is `pack(x_i) + 2^8 · pack(psraw15(x_i))`; the qc byte
compares the reconstruction against the source. -/
def emitNarrowToSigned16 (sse41 : Bool) (xs : List Nat) : List Nat × Nat :=
  let dest := xs.map fun x => ofInt 8 (clampS 8 (sToInt 16 x))
  let sign := xs.map fun x => ofInt 8 (clampS 8 (sToInt 16 (psra 16 15 x)))
  let recon := List.zipWith (fun d s => d + 2 ^ 8 * s) dest sign
  (dest, narrowQc sse41 (fromLanes 16 recon) (fromLanes 16 xs))

/-- Original element size 32: `packssdw dest, dest`; the sign words are
`psraw dest, 15` of the packed words; `punpcklwd` interleaves. -/
def emitNarrowToSigned32 (sse41 : Bool) (xs : List Nat) : List Nat × Nat :=
  let dest := xs.map fun x => ofInt 16 (clampS 16 (sToInt 32 x))
  let sign := dest.map fun d => psra 16 15 d
  let recon := List.zipWith (fun d s => d + 2 ^ 16 * s) dest sign
  (dest, narrowQc sse41 (fromLanes 32 recon) (fromLanes 32 xs))

/-- `EmitVectorSignedSaturatedNarrowToUnsigned`, 16 → 8: `packuswb`, and the
reconstruction zero-extends (`punpcklbw` against zero). -/
def emitNarrowToUnsigned16 (sse41 : Bool) (xs : List Nat) : List Nat × Nat :=
  let dest := xs.map fun x => (clampU 8 (sToInt 16 x)).toNat
  let recon := dest.map fun d => d + 2 ^ 8 * 0
  (dest, narrowQc sse41 (fromLanes 16 recon) (fromLanes 16 xs))

/-- 32 → 16 (`packusdw`; this path asserts SSE4.1, so the qc test is the
`ptest` variant). -/
def emitNarrowToUnsigned32 (xs : List Nat) : List Nat × Nat :=
  let dest := xs.map fun x => (clampU 16 (sToInt 32 x)).toNat
  let recon := dest.map fun d => d + 2 ^ 16 * 0
  (dest, narrowQc true (fromLanes 32 recon) (fromLanes 32 xs))

/-- Scalar fallback of `SignedSaturatedNarrowToSigned64`: `std::clamp` each
`s64` lane to `s32`, flag iff any lane changed. -/
def narrowToSigned64Fallback (xs : List Nat) : List Nat × Nat :=
  (xs.map fun x => ofInt 32 (clampS 32 (sToInt 64 x)),
   if xs.any fun x => decide (clampS 32 (sToInt 64 x) ≠ sToInt 64 x) then 1 else 0)

/-- Scalar fallbacks of `SignedSaturatedNarrowToUnsigned{32,64}` (and the
non-SSE4.1 path of 32): clamp each signed lane to the unsigned narrow
range. -/
def narrowToUnsignedFallback (w : Nat) (xs : List Nat) : List Nat × Nat :=
  (xs.map fun x => (clampU (w / 2) (sToInt w x)).toNat,
   if xs.any fun x => decide (clampU (w / 2) (sToInt w x) ≠ sToInt w x) then 1 else 0)

/-- Scalar fallbacks of `UnsignedSaturatedNarrow{16,32,64}`: clamp each
unsigned lane to the unsigned narrow range. -/
def unsignedSaturatedNarrowFallback (w : Nat) (xs : List Nat) : List Nat × Nat :=
  (xs.map fun x => min x (2 ^ (w / 2) - 1),
   if xs.any fun x => decide (min x (2 ^ (w / 2) - 1) ≠ x) then 1 else 0)

theorem fromLanes_lt (w : Nat) (l : List Nat) (h : ∀ x ∈ l, x < 2 ^ w) :
    fromLanes w l < 2 ^ (w * l.length) := by
  induction l with
  | nil => simp [fromLanes]
  | cons x r ih =>
      have hx := h x (by simp)
      have hr := ih fun y hy => h y (by simp [hy])
      simp only [fromLanes, List.length_cons]
      have hpow : (2 : Nat) ^ (w * (r.length + 1)) = 2 ^ w * 2 ^ (w * r.length) := by
        rw [← pow_add]
        congr 1
        ring
      rw [hpow]
      calc x + 2 ^ w * fromLanes w r
          < 2 ^ w + 2 ^ w * fromLanes w r := by omega
        _ = 2 ^ w * (fromLanes w r + 1) := by ring
        _ ≤ 2 ^ w * 2 ^ (w * r.length) := Nat.mul_le_mul_left _ (by omega)

theorem fromLanes_inj (w : Nat) (l1 l2 : List Nat)
    (h1 : ∀ x ∈ l1, x < 2 ^ w) (h2 : ∀ x ∈ l2, x < 2 ^ w)
    (hlen : l1.length = l2.length) :
    fromLanes w l1 = fromLanes w l2 ↔ l1 = l2 := by
  induction l1 generalizing l2 with
  | nil =>
      cases l2 with
      | nil => simp
      | cons y r => simp at hlen
  | cons x r ih =>
      cases l2 with
      | nil => simp at hlen
      | cons y r2 =>
          have hx := h1 x (by simp)
          have hy := h2 y (by simp)
          simp only [fromLanes]
          constructor
          · intro h
            have hmod : x = y := by
              have h1m := congrArg (fun t => t % 2 ^ w) h
              simpa [Nat.add_mul_mod_self_left, Nat.mod_eq_of_lt hx,
                Nat.mod_eq_of_lt hy] using h1m
            have hdiv : fromLanes w r = fromLanes w r2 := by
              have h1d := congrArg (fun t => t / 2 ^ w) h
              have hp : (0:Nat) < 2 ^ w := Nat.pos_pow_of_pos _ (by norm_num)
              simpa [Nat.add_mul_div_left, hp, Nat.div_eq_of_lt hx,
                Nat.div_eq_of_lt hy] using h1d
            have := (ih r2 (fun a ha => h1 a (by simp [ha]))
              (fun a ha => h2 a (by simp [ha])) (by simpa using hlen)).1 hdiv
            rw [hmod, this]
          · intro h
            injection h with hxy hr
            rw [hxy, hr]

/-- Decomposing a bounded value into its `w`-bit lanes and back. -/
theorem fromLanes_lanes (w : Nat) (hw : 0 < w) :
    ∀ (n v : Nat), v < 2 ^ (w * n) →
      fromLanes w ((List.range n).map fun i => lane w i v) = v := by
  intro n
  induction n with
  | zero =>
      intro v hv
      have hz : v = 0 := by simpa using hv
      simp [fromLanes, hz]
  | succ n ih =>
      intro v hv
      rw [List.range_succ_eq_map]
      simp only [List.map_cons, List.map_map, fromLanes]
      have hshift : v >>> w < 2 ^ (w * n) := by
        rw [Nat.shiftRight_eq_div_pow]
        have hpow : (2 : Nat) ^ (w * (n + 1)) = 2 ^ w * 2 ^ (w * n) := by
          rw [← pow_add]
          congr 1
          ring
        rw [hpow] at hv
        exact Nat.div_lt_of_lt_mul hv
      have hrest : fromLanes w (List.map ((fun i => lane w i v) ∘ Nat.succ) (List.range n))
          = v >>> w := by
        have hcomp : List.map ((fun i => lane w i v) ∘ Nat.succ) (List.range n)
            = List.map (fun i => lane w i (v >>> w)) (List.range n) := by
          apply List.map_congr_left
          intro i _
          simp only [Function.comp]
          unfold lane
          congr 1
          rw [show w * Nat.succ i = w + w * i by rw [Nat.succ_eq_add_one]; ring,
            Nat.shiftRight_add]
        rw [hcomp, ih (v >>> w) hshift]
      rw [hrest, lane_zero, Nat.shiftRight_eq_div_pow]
      exact Nat.mod_add_div v (2 ^ w)

/-- The two variants of the narrow-saturation test agree: the qc byte is 1
exactly when the reconstruction differs from the source. -/
theorem narrowQc_spec (sse41 : Bool) (v s : Nat)
    (hv : v < 2 ^ 128) (hs : s < 2 ^ 128) :
    narrowQc sse41 v s = if v = s then 0 else 1 := by
  cases sse41 with
  | true =>
      show (if v ^^^ s = 0 then 0 else 1) = _
      by_cases h : v = s
      · rw [if_pos h, if_pos (by rw [h]; simp)]
      · rw [if_neg h, if_neg (fun h0 => h (Nat.xor_eq_zero.1 h0))]
  | false =>
      show (if movmskps ((List.range 4).map fun i =>
          pcmpeq 32 (lane 32 i v) (lane 32 i s)) = 0xF then 0 else 1) = _
      have hv4 : v < 2 ^ (32 * 4) := hv
      have hs4 : s < 2 ^ (32 * 4) := hs
      have hext : (∀ i < 4, lane 32 i v = lane 32 i s) ↔ v = s := by
        constructor
        · intro h
          rw [← fromLanes_lanes 32 (by norm_num) 4 v hv4,
            ← fromLanes_lanes 32 (by norm_num) 4 s hs4]
          congr 1
          apply List.map_congr_left
          intro i hi
          exact h i (List.mem_range.1 hi)
        · intro h i _
          rw [h]
      by_cases h : v = s
      · rw [if_pos h]
        have hc : ∀ i : Nat, pcmpeq 32 (lane 32 i v) (lane 32 i s) = 2 ^ 32 - 1 := by
          intro i
          unfold pcmpeq
          rw [if_pos (show lane 32 i v = lane 32 i s by rw [h])]
        have hall : movmskps ((List.range 4).map fun i =>
            pcmpeq 32 (lane 32 i v) (lane 32 i s)) = 0xF := by
          show movmskps [pcmpeq 32 (lane 32 0 v) (lane 32 0 s),
            pcmpeq 32 (lane 32 1 v) (lane 32 1 s),
            pcmpeq 32 (lane 32 2 v) (lane 32 2 s),
            pcmpeq 32 (lane 32 3 v) (lane 32 3 s)] = 0xF
          rw [hc 0, hc 1, hc 2, hc 3]
          decide
        rw [hall, if_pos rfl]
      · rw [if_neg h]
        have hne : movmskps ((List.range 4).map fun i =>
            pcmpeq 32 (lane 32 i v) (lane 32 i s)) ≠ 0xF := by
          intro hmm
          apply h
          apply hext.1
          have hmm' : movmskps [pcmpeq 32 (lane 32 0 v) (lane 32 0 s),
              pcmpeq 32 (lane 32 1 v) (lane 32 1 s),
              pcmpeq 32 (lane 32 2 v) (lane 32 2 s),
              pcmpeq 32 (lane 32 3 v) (lane 32 3 s)] = 0xF := hmm
          simp only [movmskps, pcmpeq] at hmm'
          by_cases e0 : lane 32 0 v = lane 32 0 s <;>
            by_cases e1 : lane 32 1 v = lane 32 1 s <;>
              by_cases e2 : lane 32 2 v = lane 32 2 s <;>
                by_cases e3 : lane 32 3 v = lane 32 3 s <;>
                  simp only [e0, e1, e2, e3, if_true, if_false,
                    eq_self_iff_true] at hmm' <;>
                  norm_num at hmm' <;>
                  (intro i hi; interval_cases i <;> assumption)
        rw [if_neg hne]

theorem ofInt_lt (w : Nat) (i : Int) : ofInt w i < 2 ^ w := by
  unfold ofInt
  have hp : (0 : Int) < ((2 ^ w : Nat) : Int) := by positivity
  have h1 := Int.emod_lt_of_pos i hp
  have h0 := Int.emod_nonneg i (by positivity)
  rw [Int.toNat_lt h0]
  exact_mod_cast h1

theorem zipWith_map_same (f : Nat → Nat → Nat) (p q : Nat → Nat) :
    ∀ l : List Nat, List.zipWith f (l.map p) (l.map q) = l.map fun x => f (p x) (q x) := by
  intro l
  induction l with
  | nil => rfl
  | cons x r ih => simp [ih]

theorem map_eq_self_iff (g : Nat → Nat) :
    ∀ l : List Nat, l.map g = l ↔ ∀ x ∈ l, g x = x := by
  intro l
  induction l with
  | nil => simp
  | cons x r ih =>
      simp only [List.map_cons, List.cons.injEq, List.mem_cons]
      constructor
      · rintro ⟨h1, h2⟩ y hy
        rcases hy with rfl | hy
        · exact h1
        · exact (ih.1 h2) y hy
      · intro h
        exact ⟨h x (Or.inl rfl), ih.2 fun y hy => h y (Or.inr hy)⟩

/-- The narrow emitters' qc byte, generically: it is nonzero exactly when the
per-lane reconstruction `g` moves some lane. -/
theorem narrow_qc_generic (g : Nat → Nat) (W : Nat) (sse41 : Bool) (xs : List Nat)
    (hW : W * xs.length = 128) (hx : ∀ x ∈ xs, x < 2 ^ W)
    (hgb : ∀ x ∈ xs, g x < 2 ^ W) :
    narrowQc sse41 (fromLanes W (xs.map g)) (fromLanes W xs) ≠ 0 ↔
      ∃ x ∈ xs, g x ≠ x := by
  have hmb : ∀ y ∈ xs.map g, y < 2 ^ W := by
    intro y hy
    rcases List.mem_map.1 hy with ⟨x, hxm, rfl⟩
    exact hgb x hxm
  have hrb : fromLanes W (xs.map g) < 2 ^ 128 := by
    have := fromLanes_lt W (xs.map g) hmb
    rwa [List.length_map, hW] at this
  have hsb : fromLanes W xs < 2 ^ 128 := by
    have := fromLanes_lt W xs hx
    rwa [hW] at this
  rw [narrowQc_spec sse41 _ _ hrb hsb]
  have hinj := fromLanes_inj W (xs.map g) xs hmb hx (by rw [List.length_map])
  constructor
  · intro h
    by_contra hnone
    push_neg at hnone
    apply h
    have hmap : xs.map g = xs := (map_eq_self_iff g xs).2 hnone
    rw [hmap, if_pos rfl]
  · rintro ⟨x, hxm, hgx⟩
    have hmapne : xs.map g ≠ xs := by
      intro he
      exact hgx ((map_eq_self_iff g xs).1 he x hxm)
    have hne : fromLanes W (xs.map g) ≠ fromLanes W xs := fun he => hmapne (hinj.1 he)
    rw [if_neg hne]
    exact one_ne_zero

/-- The packed sign byte of `NarrowToSigned16`: `0x00` for non-negative
lanes, `0xFF` for negative ones. -/
theorem sign_byte_eval (x : Nat) (hx : x < 2 ^ 16) :
    ofInt 8 (clampS 8 (sToInt 16 (psra 16 15 x))) = if x < 2 ^ 15 then 0 else 2 ^ 8 - 1 := by
  by_cases h : x < 2 ^ 15
  · rw [if_pos h]
    have h1 : sToInt 16 x = (x : Int) := by
      unfold sToInt
      rw [if_pos (by norm_num at h ⊢; omega)]
    have h2 : psra 16 15 x = 0 := by
      unfold psra
      rw [h1]
      have : (x : Int) / 2 ^ 15 = 0 := by
        norm_num at h ⊢
        omega
      rw [this]
      unfold ofInt
      simp
    rw [h2]
    have h3 : sToInt 16 0 = 0 := by
      unfold sToInt
      rw [if_pos (by norm_num)]
      simp
    rw [h3]
    have h4 : clampS 8 0 = 0 := by
      unfold clampS
      rw [if_neg (by norm_num), if_neg (by norm_num)]
    rw [h4]
    unfold ofInt
    simp
  · rw [if_neg h]
    have h1 : sToInt 16 x = (x : Int) - 2 ^ 16 := by
      unfold sToInt
      rw [if_neg (by norm_num at h ⊢; omega)]
    have h2 : psra 16 15 x = 2 ^ 16 - 1 := by
      unfold psra
      rw [h1]
      have hdiv : ((x : Int) - 2 ^ 16) / 2 ^ 15 = -1 := by
        have hx' : (x : Int) < 2 ^ 16 := by exact_mod_cast hx
        have h' : (2 ^ 15 : Int) ≤ (x : Int) := by
          have : (2 ^ 15 : Nat) ≤ x := by omega
          exact_mod_cast this
        norm_num at hx' h' ⊢
        omega
      rw [hdiv]
      unfold ofInt
      decide
    rw [h2]
    have h3 : sToInt 16 (2 ^ 16 - 1) = -1 := by
      unfold sToInt
      rw [if_neg (by norm_num)]
      norm_num
    rw [h3]
    have h4 : clampS 8 (-1) = -1 := by
      unfold clampS
      rw [if_neg (by norm_num), if_neg (by norm_num)]
    rw [h4]
    unfold ofInt
    decide

/-- The sign word of `NarrowToSigned32` (computed on the packed words):
`0x0000` for non-negative lanes, `0xFFFF` for negative ones. -/
theorem sign_word_eval (x : Nat) (hx : x < 2 ^ 32) :
    psra 16 15 (ofInt 16 (clampS 16 (sToInt 32 x))) = if x < 2 ^ 31 then 0 else 2 ^ 16 - 1 := by
  by_cases h : x < 2 ^ 31
  · rw [if_pos h]
    have h1 : sToInt 32 x = (x : Int) := by
      unfold sToInt
      rw [if_pos (by norm_num at h ⊢; omega)]
    have hc : ∃ c : Int, clampS 16 (sToInt 32 x) = c ∧ 0 ≤ c ∧ c < 2 ^ 15 := by
      rw [h1]
      unfold clampS
      split_ifs with ha hb
      · exfalso
        have h0 : (0 : Int) ≤ (x : Int) := Int.natCast_nonneg x
        norm_num at ha
        omega
      · exact ⟨2 ^ 15 - 1, rfl, by norm_num, by norm_num⟩
      · refine ⟨(x : Int), rfl, by positivity, by norm_num at hb ⊢; omega⟩
    rcases hc with ⟨c, hc, hc0, hc1⟩
    rw [hc]
    have hofc : ofInt 16 c = c.toNat := by
      unfold ofInt
      have hm : c % ((2 ^ 16 : Nat) : Int) = c := by
        push_cast
        omega
      rw [hm]
    rw [hofc]
    unfold psra
    have hs : sToInt 16 c.toNat = c := by
      unfold sToInt
      rw [if_pos (by norm_num at hc1 ⊢; omega)]
      omega
    rw [hs]
    have : c / 2 ^ 15 = 0 := by
      norm_num at hc1 ⊢
      omega
    rw [this]
    unfold ofInt
    simp
  · rw [if_neg h]
    have hxI : (x : Int) < 2 ^ 32 := by exact_mod_cast hx
    have hxI' : (2 ^ 31 : Int) ≤ (x : Int) := by
      have : (2 ^ 31 : Nat) ≤ x := by omega
      exact_mod_cast this
    have h1 : sToInt 32 x = (x : Int) - 2 ^ 32 := by
      unfold sToInt
      rw [if_neg (by norm_num at h ⊢; omega)]
    have hc : ∃ c : Int, clampS 16 (sToInt 32 x) = c ∧ -(2 ^ 15) ≤ c ∧ c < 0 := by
      rw [h1]
      unfold clampS
      split_ifs with ha hb
      · exact ⟨-(2 ^ 15), rfl, le_refl _, by norm_num⟩
      · exfalso
        norm_num at hb hxI ⊢
        omega
      · refine ⟨(x : Int) - 2 ^ 32, rfl, by norm_num at ha ⊢; omega, by norm_num at hxI ⊢; omega⟩
    rcases hc with ⟨c, hc, hc0, hc1⟩
    rw [hc]
    have hofc : ofInt 16 c = (c + 2 ^ 16).toNat := by
      unfold ofInt
      have hm : c % ((2 ^ 16 : Nat) : Int) = c + 2 ^ 16 := by
        push_cast
        omega
      rw [hm]
    rw [hofc]
    unfold psra
    have hs : sToInt 16 (c + 2 ^ 16).toNat = c := by
      unfold sToInt
      rw [if_neg (by norm_num at hc0 hc1 ⊢; omega)]
      norm_num at hc0 hc1 ⊢
      omega
    rw [hs]
    have : c / 2 ^ 15 = -1 := by
      norm_num at hc0 hc1 ⊢
      omega
    rw [this]
    unfold ofInt
    decide

/-- Per-lane reconstruction identity for `NarrowToSigned16`. -/
theorem narrowS16_lane (x : Nat) (hx : x < 2 ^ 16) :
    (ofInt 8 (clampS 8 (sToInt 16 x)) + 2 ^ 8 * ofInt 8 (clampS 8 (sToInt 16 (psra 16 15 x))) = x)
      ↔ clampS 8 (sToInt 16 x) = sToInt 16 x := by
  rw [sign_byte_eval x hx]
  unfold ofInt clampS sToInt
  split_ifs <;> omega

/-- Per-lane reconstruction identity for `NarrowToSigned32`. -/
theorem narrowS32_lane (x : Nat) (hx : x < 2 ^ 32) :
    (ofInt 16 (clampS 16 (sToInt 32 x)) + 2 ^ 16 * psra 16 15 (ofInt 16 (clampS 16 (sToInt 32 x))) = x)
      ↔ clampS 16 (sToInt 32 x) = sToInt 32 x := by
  rw [sign_word_eval x hx]
  unfold ofInt clampS sToInt
  split_ifs <;> omega

/-- Per-lane reconstruction identity for `NarrowToUnsigned16`. -/
theorem narrowU16_lane (x : Nat) (hx : x < 2 ^ 16) :
    ((clampU 8 (sToInt 16 x)).toNat + 2 ^ 8 * 0 = x) ↔ clampU 8 (sToInt 16 x) = sToInt 16 x := by
  unfold clampU sToInt
  split_ifs <;> omega

/-- Per-lane reconstruction identity for `NarrowToUnsigned32`. -/
theorem narrowU32_lane (x : Nat) (hx : x < 2 ^ 32) :
    ((clampU 16 (sToInt 32 x)).toNat + 2 ^ 16 * 0 = x) ↔ clampU 16 (sToInt 32 x) = sToInt 32 x := by
  unfold clampU sToInt
  split_ifs <;> omega

theorem ite_one_zero_ne_zero (c : Prop) [Decidable c] :
    ((if c then (1 : Nat) else 0) ≠ 0) ↔ c := by
  split_ifs with h <;> simp [h]

/-- The qc byte of `NarrowToSigned16` is nonzero iff some lane saturates. -/
theorem narrowToSigned16_qc (sse41 : Bool) (xs : List Nat)
    (hlen : xs.length = 8) (hx : ∀ x ∈ xs, x < 2 ^ 16) :
    (emitNarrowToSigned16 sse41 xs).2 ≠ 0 ↔
      ∃ x ∈ xs, clampS 8 (sToInt 16 x) ≠ sToInt 16 x := by
  have hrw : (emitNarrowToSigned16 sse41 xs).2
      = narrowQc sse41 (fromLanes 16 (xs.map fun x =>
          ofInt 8 (clampS 8 (sToInt 16 x)) + 2 ^ 8 * ofInt 8 (clampS 8 (sToInt 16 (psra 16 15 x)))))
        (fromLanes 16 xs) := by
    unfold emitNarrowToSigned16
    simp only
    rw [zipWith_map_same]
  rw [hrw, narrow_qc_generic _ 16 sse41 xs (by rw [hlen]) hx (fun x hxm => by
    have h1 := ofInt_lt 8 (clampS 8 (sToInt 16 x))
    have h2 := ofInt_lt 8 (clampS 8 (sToInt 16 (psra 16 15 x)))
    norm_num at h1 h2 ⊢
    omega)]
  constructor
  · rintro ⟨x, hm, hne⟩
    exact ⟨x, hm, fun he => hne ((narrowS16_lane x (hx x hm)).2 he)⟩
  · rintro ⟨x, hm, hne⟩
    exact ⟨x, hm, fun he => hne ((narrowS16_lane x (hx x hm)).1 he)⟩

/-- The qc byte of `NarrowToSigned32` is nonzero iff some lane saturates. -/
theorem narrowToSigned32_qc (sse41 : Bool) (xs : List Nat)
    (hlen : xs.length = 4) (hx : ∀ x ∈ xs, x < 2 ^ 32) :
    (emitNarrowToSigned32 sse41 xs).2 ≠ 0 ↔
      ∃ x ∈ xs, clampS 16 (sToInt 32 x) ≠ sToInt 32 x := by
  have hrw : (emitNarrowToSigned32 sse41 xs).2
      = narrowQc sse41 (fromLanes 32 (xs.map fun x =>
          ofInt 16 (clampS 16 (sToInt 32 x)) + 2 ^ 16 * psra 16 15 (ofInt 16 (clampS 16 (sToInt 32 x)))))
        (fromLanes 32 xs) := by
    unfold emitNarrowToSigned32
    simp only
    rw [List.map_map, zipWith_map_same]
    rfl
  rw [hrw, narrow_qc_generic _ 32 sse41 xs (by rw [hlen]) hx (fun x hxm => by
    have h1 := ofInt_lt 16 (clampS 16 (sToInt 32 x))
    have h2 := ofInt_lt 16 (sToInt 16 (ofInt 16 (clampS 16 (sToInt 32 x))) / 2 ^ 15)
    unfold psra
    norm_num at h1 h2 ⊢
    omega)]
  constructor
  · rintro ⟨x, hm, hne⟩
    exact ⟨x, hm, fun he => hne ((narrowS32_lane x (hx x hm)).2 he)⟩
  · rintro ⟨x, hm, hne⟩
    exact ⟨x, hm, fun he => hne ((narrowS32_lane x (hx x hm)).1 he)⟩

/-- The qc byte of `NarrowToUnsigned16` is nonzero iff some lane saturates. -/
theorem narrowToUnsigned16_qc (sse41 : Bool) (xs : List Nat)
    (hlen : xs.length = 8) (hx : ∀ x ∈ xs, x < 2 ^ 16) :
    (emitNarrowToUnsigned16 sse41 xs).2 ≠ 0 ↔
      ∃ x ∈ xs, clampU 8 (sToInt 16 x) ≠ sToInt 16 x := by
  have hrw : (emitNarrowToUnsigned16 sse41 xs).2
      = narrowQc sse41 (fromLanes 16 (xs.map fun x =>
          (clampU 8 (sToInt 16 x)).toNat + 2 ^ 8 * 0)) (fromLanes 16 xs) := by
    unfold emitNarrowToUnsigned16
    simp only
    rw [List.map_map]
    rfl
  rw [hrw, narrow_qc_generic _ 16 sse41 xs (by rw [hlen]) hx (fun x hxm => by
    unfold clampU
    split_ifs <;> omega)]
  constructor
  · rintro ⟨x, hm, hne⟩
    exact ⟨x, hm, fun he => hne ((narrowU16_lane x (hx x hm)).2 he)⟩
  · rintro ⟨x, hm, hne⟩
    exact ⟨x, hm, fun he => hne ((narrowU16_lane x (hx x hm)).1 he)⟩

/-- The qc byte of `NarrowToUnsigned32` (SSE4.1 path) is nonzero iff some
lane saturates. -/
theorem narrowToUnsigned32_qc (xs : List Nat)
    (hlen : xs.length = 4) (hx : ∀ x ∈ xs, x < 2 ^ 32) :
    (emitNarrowToUnsigned32 xs).2 ≠ 0 ↔
      ∃ x ∈ xs, clampU 16 (sToInt 32 x) ≠ sToInt 32 x := by
  have hrw : (emitNarrowToUnsigned32 xs).2
      = narrowQc true (fromLanes 32 (xs.map fun x =>
          (clampU 16 (sToInt 32 x)).toNat + 2 ^ 16 * 0)) (fromLanes 32 xs) := by
    unfold emitNarrowToUnsigned32
    simp only
    rw [List.map_map]
    rfl
  rw [hrw, narrow_qc_generic _ 32 true xs (by rw [hlen]) hx (fun x hxm => by
    unfold clampU
    split_ifs <;> omega)]
  constructor
  · rintro ⟨x, hm, hne⟩
    exact ⟨x, hm, fun he => hne ((narrowU32_lane x (hx x hm)).2 he)⟩
  · rintro ⟨x, hm, hne⟩
    exact ⟨x, hm, fun he => hne ((narrowU32_lane x (hx x hm)).1 he)⟩

theorem narrowToSigned64Fallback_qc (xs : List Nat) :
    (narrowToSigned64Fallback xs).2 ≠ 0 ↔
      ∃ x ∈ xs, clampS 32 (sToInt 64 x) ≠ sToInt 64 x := by
  unfold narrowToSigned64Fallback
  simp only
  rw [ite_one_zero_ne_zero, List.any_eq_true]
  simp only [decide_eq_true_eq]

theorem narrowToUnsignedFallback_qc (w : Nat) (xs : List Nat) :
    (narrowToUnsignedFallback w xs).2 ≠ 0 ↔
      ∃ x ∈ xs, clampU (w / 2) (sToInt w x) ≠ sToInt w x := by
  unfold narrowToUnsignedFallback
  simp only
  rw [ite_one_zero_ne_zero, List.any_eq_true]
  simp only [decide_eq_true_eq]

theorem unsignedSaturatedNarrowFallback_qc (w : Nat) (xs : List Nat) :
    (unsignedSaturatedNarrowFallback w xs).2 ≠ 0 ↔
      ∃ x ∈ xs, min x (2 ^ (w / 2) - 1) ≠ x := by
  unfold unsignedSaturatedNarrowFallback
  simp only
  rw [ite_one_zero_ne_zero, List.any_eq_true]
  simp only [decide_eq_true_eq]

theorem satAbs64Fallback_qc (xs : List Nat) (hx : ∀ x ∈ xs, x < 2 ^ 64) :
    (satAbs64Fallback xs).2 ≠ 0 ↔
      ∃ x ∈ xs, clampS 64 (absExact 64 x) ≠ absExact 64 x := by
  unfold satAbs64Fallback
  simp only
  rw [ite_one_zero_ne_zero, List.any_eq_true]
  simp only [decide_eq_true_eq]
  constructor
  · rintro ⟨x, hm, he⟩
    refine ⟨x, hm, ?_⟩
    rw [(abs_saturates_iff 64 x (by norm_num) (hx x hm))]
    rw [he]
    rfl
  · rintro ⟨x, hm, he⟩
    refine ⟨x, hm, ?_⟩
    have := (abs_saturates_iff 64 x (by norm_num) (hx x hm)).1 he
    rw [this]
    rfl

theorem satNeg64Fallback_qc (xs : List Nat) (hx : ∀ x ∈ xs, x < 2 ^ 64) :
    (satNeg64Fallback xs).2 ≠ 0 ↔
      ∃ x ∈ xs, clampS 64 (negExact 64 x) ≠ negExact 64 x := by
  unfold satNeg64Fallback
  simp only
  rw [ite_one_zero_ne_zero, List.any_eq_true]
  simp only [decide_eq_true_eq]
  constructor
  · rintro ⟨x, hm, he⟩
    refine ⟨x, hm, ?_⟩
    rw [(neg_saturates_iff 64 x (by norm_num) (hx x hm))]
    rw [he]
    rfl
  · rintro ⟨x, hm, he⟩
    refine ⟨x, hm, ?_⟩
    have := (neg_saturates_iff 64 x (by norm_num) (hx x hm)).1 he
    rw [this]
    rfl

/-! ## `SignedSaturatedDoublingMultiplyReturnHigh` -/

/-- `pmulhw` lane semantics: the high 16 bits of the signed 32-bit product. -/
def pmulhw (x y : Nat) : Nat := ofInt 32 (sToInt 16 x * sToInt 16 y) / 2 ^ 16

/-- `pmullw` lane semantics: the low 16 bits of the product. -/
def pmullw (x y : Nat) : Nat := ofInt 32 (sToInt 16 x * sToInt 16 y) % 2 ^ 16

/-- Pre-saturation lane of `SignedSaturatedDoublingMultiplyReturnHigh16`:
`movdqa tmp, x; pmulhw tmp, y; paddw tmp, tmp; pmullw y, x; psrlw y, 15;
por y, tmp`. -/
def sdmulh16PreSat (x y : Nat) : Nat :=
  padd 16 (pmulhw x y) (pmulhw x y) ||| pmullw x y >>> 15

/-- `EmitX64::EmitVectorSignedSaturatedDoublingMultiplyReturnHigh16`: the
pre-saturation lanes are compared (`pcmpeqw`) with the `0x8000` constant and
the compare mask is XOR-ed in (`pxor`), clamping saturated lanes to `0x7FFF`;
the qc byte is `pmovmskb` of the compare mask tested against `0xAAAA`,
`setnz`. -/
def emitSDMulH16 (a b : List Nat) : List Nat × Nat :=
  let res := List.zipWith sdmulh16PreSat a b
  let cmp := res.map fun r => pcmpeq 16 (minPat 16) r
  let out := List.zipWith (fun c r => c ^^^ r) cmp res
  (out, if pmovmskb (vecBytes 2 cmp) &&& 0xAAAA ≠ 0 then 1 else 0)

/-- `punpckldq`/`punpckhdq` on the 4-dword views. -/
def punpckldq (a b : List Nat) : List Nat :=
  [a.getD 0 0, b.getD 0 0, a.getD 1 0, b.getD 1 0]

def punpckhdq (a b : List Nat) : List Nat :=
  [a.getD 2 0, b.getD 2 0, a.getD 3 0, b.getD 3 0]

/-- `pmuldq`: signed full products of dwords 0 and 2. -/
def pmuldq (a b : List Nat) : List Nat :=
  [ofInt 64 (sToInt 32 (a.getD 0 0) * sToInt 32 (b.getD 0 0)),
   ofInt 64 (sToInt 32 (a.getD 2 0) * sToInt 32 (b.getD 2 0))]

/-- `EmitX64::EmitVectorSignedSaturatedDoublingMultiplyReturnHigh32`:
interleave the operands (`punpckldq`/`punpckhdq`), take the four full signed
products (`pmuldq`), double them (`paddq`), gather the high dwords
(`pshufd 0b11101101` + `punpcklqdq`), then clamp and flag as in the 16-bit
case (with mask `0x8888`). -/
def emitSDMulH32 (a b : List Nat) : List Nat × Nat :=
  let t2 := pmuldq (punpckldq b a) (punpckldq a b)
  let tmp2 := List.zipWith (padd 64) t2 t2
  let ty := pmuldq (punpckhdq b a) (punpckhdq a b)
  let yq := List.zipWith (padd 64) ty ty
  let sh1 := pshufd 0b11101101 (toDwords tmp2)
  let sh2 := pshufd 0b11101101 (toDwords yq)
  let res := [sh1.getD 0 0, sh1.getD 1 0, sh2.getD 0 0, sh2.getD 1 0]
  let cmp := res.map fun r => pcmpeq 32 (minPat 32) r
  let out := List.zipWith (fun c r => c ^^^ r) cmp res
  (out, if pmovmskb (vecBytes 4 cmp) &&& 0x8888 ≠ 0 then 1 else 0)

theorem or_eq_add_of_and_eq_zero (a b : Nat) (h : a &&& b = 0) : a ||| b = a + b := by
  have hxor : a ||| b = a ^^^ b := by
    apply Nat.eq_of_testBit_eq
    intro i
    have hb := congrArg (fun t => t.testBit i) h
    simp only [Nat.testBit_and, Nat.zero_testBit] at hb
    rw [Nat.testBit_or, Nat.testBit_xor]
    cases hx : a.testBit i <;> cases hy : b.testBit i <;> simp_all
  rw [hxor]
  have := add_eq_xor_add_two_and a b
  omega

theorem ofInt_two_mul (W : Nat) (p : Int) :
    2 * ofInt W p % 2 ^ W = ofInt W (2 * p) := by
  unfold ofInt
  have h0 : 0 ≤ p % ((2 ^ W : Nat) : Int) := Int.emod_nonneg p (by positivity)
  have hme : (2 * p) % ((2 ^ W : Nat) : Int)
      = (2 * (p % ((2 ^ W : Nat) : Int))) % ((2 ^ W : Nat) : Int) := by
    conv_lhs => rw [Int.mul_emod]
    conv_rhs => rw [Int.mul_emod, Int.emod_emod_of_dvd p dvd_rfl]
  rw [hme]
  obtain ⟨n, hn⟩ : ∃ n : Nat, p % ((2 ^ W : Nat) : Int) = (n : Int) :=
    ⟨(p % ((2 ^ W : Nat) : Int)).toNat, (Int.toNat_of_nonneg h0).symm⟩
  rw [hn]
  norm_cast

theorem zipWith_eq_map_zip (f : Nat → Nat → Nat) :
    ∀ a b : List Nat, List.zipWith f a b = (a.zip b).map fun p => f p.1 p.2 := by
  intro a
  induction a with
  | nil => intro b; rfl
  | cons x r ih =>
      intro b
      cases b with
      | nil => rfl
      | cons y s => simp [List.zip_cons_cons, ih]

/-- Bounds and the saturation characterisation of the signed product. -/
theorem sdmulh_prod_bounds (M sx sy : Int) (hM : 0 < M)
    (hx1 : -M ≤ sx) (hx2 : sx < M) (hy1 : -M ≤ sy) (hy2 : sy < M) :
    -(M * M) + M ≤ sx * sy ∧ sx * sy ≤ M * M ∧
      (sx * sy = M * M ↔ sx = -M ∧ sy = -M) := by
  have p1 : 0 ≤ (sx + M) * (sy + M) := mul_nonneg (by linarith) (by linarith)
  have p2 : 0 ≤ (M - 1 - sx) * (M - 1 - sy) := mul_nonneg (by linarith) (by linarith)
  have p3 : 0 ≤ (sx + M) * (M - 1 - sy) := mul_nonneg (by linarith) (by linarith)
  have p4 : 0 ≤ (M - 1 - sx) * (sy + M) := mul_nonneg (by linarith) (by linarith)
  refine ⟨by nlinarith, by nlinarith, ?_, ?_⟩
  · intro hprod
    constructor
    · by_contra hne
      have hgt : -M + 1 ≤ sx := by omega
      nlinarith
    · by_contra hne
      have hgt : -M + 1 ≤ sy := by omega
      nlinarith
  · rintro ⟨rfl, rfl⟩
    ring

theorem sdmulh16PreSat_eq (x y : Nat) :
    sdmulh16PreSat x y = ofInt 32 (2 * (sToInt 16 x * sToInt 16 y)) / 2 ^ 16 := by
  unfold sdmulh16PreSat pmulhw pmullw padd
  rw [← ofInt_two_mul 32]
  have hPlt := ofInt_lt 32 (sToInt 16 x * sToInt 16 y)
  generalize ofInt 32 (sToInt 16 x * sToInt 16 y) = P at hPlt ⊢
  have hble : (P % 2 ^ 16) >>> 15 ≤ 1 := by
    rw [Nat.shiftRight_eq_div_pow]
    omega
  have hand : (P / 2 ^ 16 + P / 2 ^ 16) % 2 ^ 16 &&& (P % 2 ^ 16) >>> 15 = 0 := by
    rcases Nat.le_one_iff_eq_zero_or_eq_one.1 hble with h | h
    · rw [h, Nat.and_zero]
    · rw [h, Nat.and_one_is_mod]
      omega
  rw [or_eq_add_of_and_eq_zero _ _ hand, Nat.shiftRight_eq_div_pow]
  omega

/-- `sToInt` hits `-2^(w-1)` exactly at the INT_MIN pattern. -/
theorem sToInt_eq_min_iff (w x : Nat) (hw : 0 < w) (hx : x < 2 ^ w) :
    sToInt w x = -(2 ^ (w - 1)) ↔ x = minPat w := by
  have h2w : (2 : Nat) ^ w = 2 * 2 ^ (w - 1) := by
    conv_lhs => rw [show w = (w - 1) + 1 by omega]
    rw [pow_succ]
    ring
  have h2wI : ((2 : Int)) ^ w = 2 * 2 ^ (w - 1) := by
    conv_lhs => rw [show w = (w - 1) + 1 by omega]
    rw [pow_succ]
    ring
  have hxI : (x : Int) < 2 * 2 ^ (w - 1) := by
    have := hx
    rw [h2w] at this
    exact_mod_cast this
  have hMp : (0 : Int) < 2 ^ (w - 1) := by positivity
  have hmin : (minPat w : Int) = 2 ^ (w - 1) := by
    unfold minPat
    push_cast
    ring
  unfold sToInt
  constructor
  · intro h
    split_ifs at h with hc
    · exfalso
      have h0 : (0 : Int) ≤ (x : Int) := Int.natCast_nonneg x
      omega
    · rw [h2wI] at h
      have : (x : Int) = 2 ^ (w - 1) := by omega
      have h2 : (x : Int) = (minPat w : Int) := by rw [hmin, this]
      exact_mod_cast h2
  · intro h
    subst h
    have hc : ¬ ((minPat w : Nat) < 2 ^ (w - 1)) := by
      unfold minPat
      omega
    rw [if_neg hc, hmin, h2wI]
    ring

theorem sdmulh16_minPat_iff (x y : Nat) (hx : x < 2 ^ 16) (hy : y < 2 ^ 16) :
    (ofInt 32 (2 * (sToInt 16 x * sToInt 16 y)) / 2 ^ 16 = minPat 16
      ↔ (x = minPat 16 ∧ y = minPat 16)) ∧
    (clampS 32 (2 * (sToInt 16 x * sToInt 16 y)) ≠ 2 * (sToInt 16 x * sToInt 16 y)
      ↔ (x = minPat 16 ∧ y = minPat 16)) := by
  have hbx := sToInt_bounds 16 x (by norm_num) hx
  have hby := sToInt_bounds 16 y (by norm_num) hy
  have hprod := sdmulh_prod_bounds (2 ^ 15) (sToInt 16 x) (sToInt 16 y) (by norm_num)
    (by exact_mod_cast hbx.1) (by exact_mod_cast hbx.2)
    (by exact_mod_cast hby.1) (by exact_mod_cast hby.2)
  have hxm := sToInt_eq_min_iff 16 x (by norm_num) hx
  have hym := sToInt_eq_min_iff 16 y (by norm_num) hy
  have hiff : sToInt 16 x * sToInt 16 y = 2 ^ 15 * 2 ^ 15 ↔ (x = minPat 16 ∧ y = minPat 16) := by
    constructor
    · intro h
      rcases hprod.2.2.1 h with ⟨h1, h2⟩
      exact ⟨hxm.1 h1, hym.1 h2⟩
    · rintro ⟨h1, h2⟩
      exact hprod.2.2.2 ⟨hxm.2 h1, hym.2 h2⟩
  have hlow := hprod.1
  have hhigh := hprod.2.1
  constructor
  · rw [← hiff]
    unfold ofInt minPat
    constructor
    · intro h
      norm_num at hlow hhigh h ⊢
      omega
    · intro h
      rw [h]
      decide
  · rw [← hiff]
    unfold clampS
    split_ifs with h1 h2
    · constructor
      · intro _
        norm_num at hlow h1 ⊢
        omega
      · intro h
        norm_num at hlow h1 h ⊢
        omega
    · constructor
      · intro _
        norm_num at hhigh h2 ⊢
        omega
      · intro h
        intro he
        norm_num at h2 he h ⊢
        omega
    · constructor
      · intro h
        exact absurd rfl h
      · intro h
        norm_num at h2 h ⊢
        omega

theorem sdmulh32_minPat_iff (x y : Nat) (hx : x < 2 ^ 32) (hy : y < 2 ^ 32) :
    (ofInt 64 (2 * (sToInt 32 x * sToInt 32 y)) / 2 ^ 32 = minPat 32
      ↔ (x = minPat 32 ∧ y = minPat 32)) ∧
    (clampS 64 (2 * (sToInt 32 x * sToInt 32 y)) ≠ 2 * (sToInt 32 x * sToInt 32 y)
      ↔ (x = minPat 32 ∧ y = minPat 32)) := by
  have hbx := sToInt_bounds 32 x (by norm_num) hx
  have hby := sToInt_bounds 32 y (by norm_num) hy
  have hprod := sdmulh_prod_bounds (2 ^ 31) (sToInt 32 x) (sToInt 32 y) (by norm_num)
    (by exact_mod_cast hbx.1) (by exact_mod_cast hbx.2)
    (by exact_mod_cast hby.1) (by exact_mod_cast hby.2)
  have hxm := sToInt_eq_min_iff 32 x (by norm_num) hx
  have hym := sToInt_eq_min_iff 32 y (by norm_num) hy
  have hiff : sToInt 32 x * sToInt 32 y = 2 ^ 31 * 2 ^ 31 ↔ (x = minPat 32 ∧ y = minPat 32) := by
    constructor
    · intro h
      rcases hprod.2.2.1 h with ⟨h1, h2⟩
      exact ⟨hxm.1 h1, hym.1 h2⟩
    · rintro ⟨h1, h2⟩
      exact hprod.2.2.2 ⟨hxm.2 h1, hym.2 h2⟩
  have hlow := hprod.1
  have hhigh := hprod.2.1
  constructor
  · rw [← hiff]
    unfold ofInt minPat
    constructor
    · intro h
      norm_num at hlow hhigh h ⊢
      omega
    · intro h
      rw [h]
      decide
  · rw [← hiff]
    unfold clampS
    split_ifs with h1 h2
    · constructor
      · intro _
        norm_num at hlow h1 ⊢
        omega
      · intro h
        norm_num at hlow h1 h ⊢
        omega
    · constructor
      · intro _
        norm_num at hhigh h2 ⊢
        omega
      · intro h
        intro he
        norm_num at h2 he h ⊢
        omega
    · constructor
      · intro h
        exact absurd rfl h
      · intro h
        norm_num at h2 h ⊢
        omega

/-- Companion of `satMinQcByte_ne_iff` for the saturated-multiply emitters,
whose `pcmpeq` compares the constant against the result lanes. -/
theorem minPat_cmp_test_iff (w : Nat) (hw : w = 8 ∨ w = 16 ∨ w = 32 ∨ w = 64)
    (rs : List Nat) (hlen : rs.length = 128 / w) :
    ((if pmovmskb (vecBytes (w / 8) (rs.map fun r => pcmpeq w (minPat w) r)) &&& qcTestMask w ≠ 0
      then (1 : Nat) else 0) ≠ 0) ↔ ∃ r ∈ rs, r = minPat w := by
  have hk : 0 < w / 8 := by rcases hw with rfl | rfl | rfl | rfl <;> norm_num
  have h8k : 8 * (w / 8) = w := by rcases hw with rfl | rfl | rfl | rfl <;> norm_num
  have hmask : qcTestMask w = maskRep (w / 8) (rs.map fun r => pcmpeq w (minPat w) r).length := by
    rw [List.length_map, hlen]
    rcases hw with rfl | rfl | rfl | rfl <;> rfl
  have hcmp : ∀ c ∈ rs.map fun r => pcmpeq w (minPat w) r,
      c = 0 ∨ c = 2 ^ (8 * (w / 8)) - 1 := by
    intro c hc
    rcases List.mem_map.1 hc with ⟨r, _, rfl⟩
    unfold pcmpeq
    rw [h8k]
    split
    · right; rfl
    · left; rfl
  have htest := movmsk_test (w / 8) hk (rs.map fun r => pcmpeq w (minPat w) r) hcmp
  rw [hmask]
  by_cases hc : pmovmskb (vecBytes (w / 8) (rs.map fun r => pcmpeq w (minPat w) r)) &&&
      maskRep (w / 8) (rs.map fun r => pcmpeq w (minPat w) r).length ≠ 0
  · rw [if_pos hc]
    constructor
    · intro _
      rcases htest.1 hc with ⟨c, hcm, hcne⟩
      rcases List.mem_map.1 hcm with ⟨r, hr, rfl⟩
      refine ⟨r, hr, ?_⟩
      by_contra hne
      apply hcne
      unfold pcmpeq
      rw [if_neg (fun he => hne he.symm)]
    · intro _
      exact one_ne_zero
  · rw [if_neg hc]
    constructor
    · intro h
      exact absurd rfl h
    · rintro ⟨r, hr, rfl⟩
      exfalso
      apply hc
      apply htest.2
      refine ⟨pcmpeq w (minPat w) (minPat w), List.mem_map.2 ⟨minPat w, hr, rfl⟩, ?_⟩
      unfold pcmpeq
      rw [if_pos rfl]
      have hge : (2 : Nat) ^ 8 ≤ 2 ^ w := Nat.pow_le_pow_right (by norm_num)
        (by rcases hw with rfl | rfl | rfl | rfl <;> norm_num)
      omega

theorem zipWith_map_left_self (f : Nat → Nat → Nat) (g : Nat → Nat) :
    ∀ l : List Nat, List.zipWith f (l.map g) l = l.map fun r => f (g r) r := by
  intro l
  induction l with
  | nil => rfl
  | cons x r ih => simp [ih]

/-- The clamp step of the saturated-multiply emitters, per lane. -/
theorem sdmulh_clamp_lane (w r : Nat)
    (hw : w = 16 ∨ w = 32) (hr : r < 2 ^ w) :
    pcmpeq w (minPat w) r ^^^ r = if r = minPat w then 2 ^ (w - 1) - 1 else r := by
  unfold pcmpeq
  by_cases h : r = minPat w
  · rw [if_pos (h ▸ rfl), if_pos h, h]
    unfold minPat
    rcases hw with rfl | rfl <;> decide
  · rw [if_neg (fun he => h he.symm), if_neg h]
    exact Nat.zero_xor r

/-- `emitSDMulH16`, result and flag: each lane is the high half of the exact
doubled product except that the `0x8000 × 0x8000` pair saturates to `0x7FFF`;
the qc byte is nonzero exactly when such a pair exists. -/
theorem sdmulh16_result_and_qc (a b : List Nat) (hla : a.length = 8) (hlb : b.length = 8)
    (ha : ∀ x ∈ a, x < 2 ^ 16) (hb : ∀ y ∈ b, y < 2 ^ 16) :
    (emitSDMulH16 a b).1 = (a.zip b).map (fun q =>
        if q.1 = minPat 16 ∧ q.2 = minPat 16 then 2 ^ 15 - 1
        else ofInt 32 (2 * (sToInt 16 q.1 * sToInt 16 q.2)) / 2 ^ 16) ∧
    ((emitSDMulH16 a b).2 ≠ 0 ↔ ∃ q ∈ a.zip b, q.1 = minPat 16 ∧ q.2 = minPat 16) := by
  have hzip : ∀ q ∈ a.zip b, q.1 < 2 ^ 16 ∧ q.2 < 2 ^ 16 := by
    intro q hq
    have := List.of_mem_zip hq
    exact ⟨ha q.1 this.1, hb q.2 this.2⟩
  have hres : List.zipWith sdmulh16PreSat a b
      = (a.zip b).map fun q => ofInt 32 (2 * (sToInt 16 q.1 * sToInt 16 q.2)) / 2 ^ 16 := by
    rw [zipWith_eq_map_zip]
    apply List.map_congr_left
    intro q _
    exact sdmulh16PreSat_eq q.1 q.2
  constructor
  · show List.zipWith (fun c r => c ^^^ r)
        ((List.zipWith sdmulh16PreSat a b).map fun r => pcmpeq 16 (minPat 16) r)
        (List.zipWith sdmulh16PreSat a b) = _
    rw [zipWith_map_left_self, hres, List.map_map]
    apply List.map_congr_left
    intro q hq
    have hb1 := (hzip q hq).1
    have hb2 := (hzip q hq).2
    have hvlt : ofInt 32 (2 * (sToInt 16 q.1 * sToInt 16 q.2)) / 2 ^ 16 < 2 ^ 16 := by
      have := ofInt_lt 32 (2 * (sToInt 16 q.1 * sToInt 16 q.2))
      omega
    simp only [Function.comp]
    rw [sdmulh_clamp_lane 16 _ (Or.inl rfl) hvlt]
    have hiff := (sdmulh16_minPat_iff q.1 q.2 hb1 hb2).1
    by_cases hcond : q.1 = minPat 16 ∧ q.2 = minPat 16
    · rw [if_pos (hiff.2 hcond), if_pos hcond]
    · rw [if_neg (fun h => hcond (hiff.1 h)), if_neg hcond]
  · show ((if pmovmskb (vecBytes 2 ((List.zipWith sdmulh16PreSat a b).map
        fun r => pcmpeq 16 (minPat 16) r)) &&& 0xAAAA ≠ 0 then (1:Nat) else 0) ≠ 0) ↔ _
    have hlen : (List.zipWith sdmulh16PreSat a b).length = 128 / 16 := by
      rw [List.length_zipWith, hla, hlb]
      decide
    rw [show (0xAAAA : Nat) = qcTestMask 16 from rfl,
      minPat_cmp_test_iff 16 (Or.inr (Or.inl rfl)) _ hlen, hres]
    constructor
    · rintro ⟨r, hr, rfl⟩
      rcases List.mem_map.1 hr with ⟨q, hq, heq⟩
      exact ⟨q, hq, (sdmulh16_minPat_iff q.1 q.2 (hzip q hq).1 (hzip q hq).2).1.1 heq⟩
    · rintro ⟨q, hq, hmin⟩
      refine ⟨minPat 16, ?_, rfl⟩
      apply List.mem_map.2
      exact ⟨q, hq, (sdmulh16_minPat_iff q.1 q.2 (hzip q hq).1 (hzip q hq).2).1.2 hmin⟩

/-- `emitSDMulH32`: the qc byte is nonzero exactly when some lane pair is
`INT_MIN × INT_MIN`. -/
theorem sdmulh32_qc (a b : List Nat) (hla : a.length = 4) (hlb : b.length = 4)
    (ha : ∀ x ∈ a, x < 2 ^ 32) (hb : ∀ y ∈ b, y < 2 ^ 32) :
    (emitSDMulH32 a b).2 ≠ 0 ↔ ∃ q ∈ a.zip b, q.1 = minPat 32 ∧ q.2 = minPat 32 := by
  obtain ⟨a0, a1, a2, a3, rfl⟩ : ∃ a0 a1 a2 a3, a = [a0, a1, a2, a3] := by
    rcases a with _ | ⟨a0, _ | ⟨a1, _ | ⟨a2, _ | ⟨a3, _ | ⟨a4, t⟩⟩⟩⟩⟩ <;>
      first
        | exact ⟨a0, a1, a2, a3, rfl⟩
        | (exfalso; simp at hla)
  obtain ⟨b0, b1, b2, b3, rfl⟩ : ∃ b0 b1 b2 b3, b = [b0, b1, b2, b3] := by
    rcases b with _ | ⟨b0, _ | ⟨b1, _ | ⟨b2, _ | ⟨b3, _ | ⟨b4, t⟩⟩⟩⟩⟩ <;>
      first
        | exact ⟨b0, b1, b2, b3, rfl⟩
        | (exfalso; simp at hlb)
  have hv : ∀ x y : Nat,
      padd 64 (ofInt 64 (sToInt 32 y * sToInt 32 x)) (ofInt 64 (sToInt 32 y * sToInt 32 x)) / 2 ^ 32
        = ofInt 64 (2 * (sToInt 32 x * sToInt 32 y)) / 2 ^ 32 := by
    intro x y
    unfold padd
    rw [← two_mul, ofInt_two_mul, mul_comm (sToInt 32 y) (sToInt 32 x)]
  have hshape : (emitSDMulH32 [a0, a1, a2, a3] [b0, b1, b2, b3]).2
      = if pmovmskb (vecBytes 4
          (([ofInt 64 (2 * (sToInt 32 a0 * sToInt 32 b0)) / 2 ^ 32,
             ofInt 64 (2 * (sToInt 32 a1 * sToInt 32 b1)) / 2 ^ 32,
             ofInt 64 (2 * (sToInt 32 a2 * sToInt 32 b2)) / 2 ^ 32,
             ofInt 64 (2 * (sToInt 32 a3 * sToInt 32 b3)) / 2 ^ 32]).map
            fun r => pcmpeq 32 (minPat 32) r)) &&& 0x8888 ≠ 0
        then 1 else 0 := by
    show (if pmovmskb (vecBytes 4
          (([padd 64 (ofInt 64 (sToInt 32 b0 * sToInt 32 a0)) (ofInt 64 (sToInt 32 b0 * sToInt 32 a0)) / 2 ^ 32,
             padd 64 (ofInt 64 (sToInt 32 b1 * sToInt 32 a1)) (ofInt 64 (sToInt 32 b1 * sToInt 32 a1)) / 2 ^ 32,
             padd 64 (ofInt 64 (sToInt 32 b2 * sToInt 32 a2)) (ofInt 64 (sToInt 32 b2 * sToInt 32 a2)) / 2 ^ 32,
             padd 64 (ofInt 64 (sToInt 32 b3 * sToInt 32 a3)) (ofInt 64 (sToInt 32 b3 * sToInt 32 a3)) / 2 ^ 32]).map
            fun r => pcmpeq 32 (minPat 32) r)) &&& 0x8888 ≠ 0
        then (1 : Nat) else 0) = _
    rw [hv a0 b0, hv a1 b1, hv a2 b2, hv a3 b3]
  rw [hshape, show (0x8888 : Nat) = qcTestMask 32 from rfl,
    minPat_cmp_test_iff 32 (Or.inr (Or.inr (Or.inl rfl))) _ (by rfl)]
  have h0 := ha a0 (by simp)
  have h1 := ha a1 (by simp)
  have h2 := ha a2 (by simp)
  have h3 := ha a3 (by simp)
  have k0 := hb b0 (by simp)
  have k1 := hb b1 (by simp)
  have k2 := hb b2 (by simp)
  have k3 := hb b3 (by simp)
  have e0 := (sdmulh32_minPat_iff a0 b0 h0 k0).1
  have e1 := (sdmulh32_minPat_iff a1 b1 h1 k1).1
  have e2 := (sdmulh32_minPat_iff a2 b2 h2 k2).1
  have e3 := (sdmulh32_minPat_iff a3 b3 h3 k3).1
  constructor
  · rintro ⟨r, hr, rfl⟩
    simp only [List.mem_cons, List.not_mem_nil, or_false] at hr
    rcases hr with h | h | h | h
    · exact ⟨(a0, b0), by simp, e0.1 h.symm⟩
    · exact ⟨(a1, b1), by simp, e1.1 h.symm⟩
    · exact ⟨(a2, b2), by simp, e2.1 h.symm⟩
    · exact ⟨(a3, b3), by simp, e3.1 h.symm⟩
  · rintro ⟨q, hq, hmin⟩
    have hzip : ([a0, a1, a2, a3].zip [b0, b1, b2, b3])
        = [(a0, b0), (a1, b1), (a2, b2), (a3, b3)] := rfl
    rw [hzip] at hq
    simp only [List.mem_cons, List.not_mem_nil, or_false] at hq
    rcases hq with rfl | rfl | rfl | rfl
    · exact ⟨_, by simp, e0.2 hmin⟩
    · exact ⟨_, by simp, e1.2 hmin⟩
    · exact ⟨_, by simp, e2.2 hmin⟩
    · exact ⟨_, by simp, e3.2 hmin⟩

/-- C4: for every pair of 8-lane input vectors, each 16-bit lane of
`SignedSaturatedDoublingMultiplyReturnHigh16` equals the high 16 bits of the
exact 32-bit doubled signed product, except that the lane pair
`0x8000 × 0x8000` yields `0x7FFF`; the byte OR-ed into `fpsr_qc` is nonzero
exactly when some lane pair is `0x8000 × 0x8000`; and on the all-`0x8000`
inputs the result is all-`0x7FFF` with qc byte `1`. -/
theorem sdmulh16_contract (a b : List Nat) (hla : a.length = 8) (hlb : b.length = 8)
    (ha : ∀ x ∈ a, x < 2 ^ 16) (hb : ∀ y ∈ b, y < 2 ^ 16) :
    ((emitSDMulH16 a b).1 = (a.zip b).map (fun q =>
        if q.1 = 0x8000 ∧ q.2 = 0x8000 then 0x7FFF
        else ofInt 32 (2 * (sToInt 16 q.1 * sToInt 16 q.2)) / 2 ^ 16) ∧
      ((emitSDMulH16 a b).2 ≠ 0 ↔ ∃ q ∈ a.zip b, q.1 = 0x8000 ∧ q.2 = 0x8000)) ∧
    emitSDMulH16 (List.replicate 8 0x8000) (List.replicate 8 0x8000)
      = (List.replicate 8 0x7FFF, 1) := by
  have h := sdmulh16_result_and_qc a b hla hlb ha hb
  exact ⟨⟨h.1, h.2⟩, by decide⟩

theorem sdmulh16_contract_witness :
    (emitSDMulH16 (List.replicate 8 0x8000) (List.replicate 8 0x8000)).2 ≠ 0 ↔
      ∃ q ∈ (List.replicate 8 (0x8000 : Nat)).zip (List.replicate 8 (0x8000 : Nat)),
        q.1 = 0x8000 ∧ q.2 = 0x8000 :=
  ((sdmulh16_contract (List.replicate 8 0x8000) (List.replicate 8 0x8000)
    (by decide) (by decide) (by decide) (by decide)).1).2

/-- C3: for every opcode with a saturation-flag contract
(`SignedSaturatedAbs{8,16,32,64}` and `SignedSaturatedNeg{8,16,32,64}` on both
the SIMD and scalar-fallback paths, `SignedSaturatedDoublingMultiplyReturnHigh{16,32}`,
and all the saturating narrows), the byte OR-ed into `fpsr_qc` is nonzero iff
at least one lane actually saturated, i.e. its clamped result differs from the
exact one. -/
theorem saturation_flag_iff_lane_saturated :
    (∀ w, (w = 8 ∨ w = 16 ∨ w = 32 ∨ w = 64) → ∀ xs : List Nat,
      xs.length = 128 / w → (∀ x ∈ xs, x < 2 ^ w) →
      ((satMinQcByte w xs ≠ 0 ↔ ∃ x ∈ xs, clampS w (absExact w x) ≠ absExact w x) ∧
       (satMinQcByte w xs ≠ 0 ↔ ∃ x ∈ xs, clampS w (negExact w x) ≠ negExact w x))) ∧
    (∀ xs : List Nat, (∀ x ∈ xs, x < 2 ^ 64) →
      (((satAbs64Fallback xs).2 ≠ 0 ↔ ∃ x ∈ xs, clampS 64 (absExact 64 x) ≠ absExact 64 x) ∧
       ((satNeg64Fallback xs).2 ≠ 0 ↔ ∃ x ∈ xs, clampS 64 (negExact 64 x) ≠ negExact 64 x))) ∧
    (∀ a b : List Nat, a.length = 8 → b.length = 8 →
      (∀ x ∈ a, x < 2 ^ 16) → (∀ y ∈ b, y < 2 ^ 16) →
      ((emitSDMulH16 a b).2 ≠ 0 ↔ ∃ q ∈ a.zip b,
        clampS 32 (2 * (sToInt 16 q.1 * sToInt 16 q.2)) ≠ 2 * (sToInt 16 q.1 * sToInt 16 q.2))) ∧
    (∀ a b : List Nat, a.length = 4 → b.length = 4 →
      (∀ x ∈ a, x < 2 ^ 32) → (∀ y ∈ b, y < 2 ^ 32) →
      ((emitSDMulH32 a b).2 ≠ 0 ↔ ∃ q ∈ a.zip b,
        clampS 64 (2 * (sToInt 32 q.1 * sToInt 32 q.2)) ≠ 2 * (sToInt 32 q.1 * sToInt 32 q.2))) ∧
    (∀ (sse41 : Bool) (xs : List Nat), xs.length = 8 → (∀ x ∈ xs, x < 2 ^ 16) →
      ((emitNarrowToSigned16 sse41 xs).2 ≠ 0 ↔ ∃ x ∈ xs, clampS 8 (sToInt 16 x) ≠ sToInt 16 x)) ∧
    (∀ (sse41 : Bool) (xs : List Nat), xs.length = 4 → (∀ x ∈ xs, x < 2 ^ 32) →
      ((emitNarrowToSigned32 sse41 xs).2 ≠ 0 ↔ ∃ x ∈ xs, clampS 16 (sToInt 32 x) ≠ sToInt 32 x)) ∧
    (∀ xs : List Nat,
      ((narrowToSigned64Fallback xs).2 ≠ 0 ↔ ∃ x ∈ xs, clampS 32 (sToInt 64 x) ≠ sToInt 64 x)) ∧
    (∀ (sse41 : Bool) (xs : List Nat), xs.length = 8 → (∀ x ∈ xs, x < 2 ^ 16) →
      ((emitNarrowToUnsigned16 sse41 xs).2 ≠ 0 ↔ ∃ x ∈ xs, clampU 8 (sToInt 16 x) ≠ sToInt 16 x)) ∧
    (∀ xs : List Nat, xs.length = 4 → (∀ x ∈ xs, x < 2 ^ 32) →
      ((emitNarrowToUnsigned32 xs).2 ≠ 0 ↔ ∃ x ∈ xs, clampU 16 (sToInt 32 x) ≠ sToInt 32 x)) ∧
    (∀ (w : Nat) (xs : List Nat), ((narrowToUnsignedFallback w xs).2 ≠ 0 ↔
      ∃ x ∈ xs, clampU (w / 2) (sToInt w x) ≠ sToInt w x)) ∧
    (∀ (w : Nat) (xs : List Nat), ((unsignedSaturatedNarrowFallback w xs).2 ≠ 0 ↔
      ∃ x ∈ xs, min x (2 ^ (w / 2) - 1) ≠ x)) := by
  refine ⟨?_, ?_, ?_, ?_, ?_, ?_, ?_, ?_, ?_, ?_, ?_⟩
  · intro w hw xs hlen hx
    have hw0 : 0 < w := by rcases hw with rfl | rfl | rfl | rfl <;> norm_num
    constructor
    · rw [satMinQcByte_ne_iff w hw xs hlen]
      constructor
      · rintro ⟨x, hm, rfl⟩
        exact ⟨_, hm, (abs_saturates_iff w _ hw0 (hx _ hm)).2 rfl⟩
      · rintro ⟨x, hm, hs⟩
        exact ⟨x, hm, (abs_saturates_iff w x hw0 (hx x hm)).1 hs⟩
    · rw [satMinQcByte_ne_iff w hw xs hlen]
      constructor
      · rintro ⟨x, hm, rfl⟩
        exact ⟨_, hm, (neg_saturates_iff w _ hw0 (hx _ hm)).2 rfl⟩
      · rintro ⟨x, hm, hs⟩
        exact ⟨x, hm, (neg_saturates_iff w x hw0 (hx x hm)).1 hs⟩
  · intro xs hx
    exact ⟨satAbs64Fallback_qc xs hx, satNeg64Fallback_qc xs hx⟩
  · intro a b hla hlb ha hb
    rw [(sdmulh16_result_and_qc a b hla hlb ha hb).2]
    constructor
    · rintro ⟨q, hq, hmin⟩
      have hm := List.of_mem_zip hq
      exact ⟨q, hq, (sdmulh16_minPat_iff q.1 q.2 (ha q.1 hm.1) (hb q.2 hm.2)).2.2 hmin⟩
    · rintro ⟨q, hq, hs⟩
      have hm := List.of_mem_zip hq
      exact ⟨q, hq, (sdmulh16_minPat_iff q.1 q.2 (ha q.1 hm.1) (hb q.2 hm.2)).2.1 hs⟩
  · intro a b hla hlb ha hb
    rw [sdmulh32_qc a b hla hlb ha hb]
    constructor
    · rintro ⟨q, hq, hmin⟩
      have hm := List.of_mem_zip hq
      exact ⟨q, hq, (sdmulh32_minPat_iff q.1 q.2 (ha q.1 hm.1) (hb q.2 hm.2)).2.2 hmin⟩
    · rintro ⟨q, hq, hs⟩
      have hm := List.of_mem_zip hq
      exact ⟨q, hq, (sdmulh32_minPat_iff q.1 q.2 (ha q.1 hm.1) (hb q.2 hm.2)).2.1 hs⟩
  · exact fun sse41 xs hlen hx => narrowToSigned16_qc sse41 xs hlen hx
  · exact fun sse41 xs hlen hx => narrowToSigned32_qc sse41 xs hlen hx
  · exact fun xs => narrowToSigned64Fallback_qc xs
  · exact fun sse41 xs hlen hx => narrowToUnsigned16_qc sse41 xs hlen hx
  · exact fun xs hlen hx => narrowToUnsigned32_qc xs hlen hx
  · exact fun w xs => narrowToUnsignedFallback_qc w xs
  · exact fun w xs => unsignedSaturatedNarrowFallback_qc w xs

theorem saturation_flag_iff_lane_saturated_witness :
    (satMinQcByte 8 (List.replicate 16 0x80) ≠ 0 ↔
      ∃ x ∈ List.replicate 16 (0x80 : Nat), clampS 8 (absExact 8 x) ≠ absExact 8 x) ∧
    (satMinQcByte 8 (List.replicate 16 0x80) ≠ 0 ↔
      ∃ x ∈ List.replicate 16 (0x80 : Nat), clampS 8 (negExact 8 x) ≠ negExact 8 x) :=
  saturation_flag_iff_lane_saturated.1 8 (by decide) (List.replicate 16 0x80)
    (by decide) (by decide)

/-! ## `VectorTableLookup` -/

/-- `pshufb` byte semantics: a set top bit of the index byte yields zero,
otherwise the low nibble selects a byte of the table register. -/
def pshufb (t idx : List Nat) : List Nat :=
  idx.map fun j => if 128 ≤ j then 0 else t.getD (j % 16) 0

/-- `paddusb`: byte-wise unsigned saturating add. -/
def paddusb (a b : List Nat) : List Nat :=
  List.zipWith (fun x y => min (x + y) 255) a b

/-- `pcmpeqb`: byte-wise compare, `0xFF` on equal. -/
def pcmpeqb (a b : List Nat) : List Nat :=
  List.zipWith (fun x y => if x = y then 255 else 0) a b

/-- `pand` on the byte views. -/
def pandBytes (a b : List Nat) : List Nat :=
  List.zipWith (fun x y => x &&& y) a b

/-- `pblendvb dst, src` with the implicit `xmm0` mask: the top bit of each
mask byte selects the source byte. -/
def blendList : List Nat → List Nat → List Nat → List Nat
  | d :: ds, s :: ss, m :: ms => (if 128 ≤ m then s else d) :: blendList ds ss ms
  | _, _, _ => []

/-- SSSE3 path, zero defaults, table size 1: bias the indices by `0x70`
(saturating) and `pshufb`. -/
def tableLookupSSSE3Zero1 (t0 idx : List Nat) : List Nat :=
  pshufb t0 (paddusb idx (List.replicate 16 0x70))

/-- SSE4.1 path, table size 1: `pshufb` with the unbiased indices, then
blend in the defaults under the biased mask. -/
def tableLookupSSE41Size1 (defaults t0 idx : List Nat) : List Nat :=
  blendList (pshufb t0 idx) defaults (paddusb idx (List.replicate 16 0x70))

/-- SSE4.1 path, zero defaults, table size 2: two biased `pshufb`s blended
under the `0x70`-biased mask. -/
def tableLookupSSE41Zero2 (t0 t1 idx : List Nat) : List Nat :=
  blendList (pshufb t0 (paddusb idx (List.replicate 16 0x70)))
    (pshufb t1 (paddusb idx (List.replicate 16 0x60)))
    (paddusb idx (List.replicate 16 0x70))

/-- General SSE4.1 path: start from the defaults and, for each table
register, blend in its `pshufb` under the `pcmpeqb` mask of the high
nibbles against `0x10·i`. -/
def tableLookupSSE41General (defaults : List Nat) (table : List (List Nat)) (idx : List Nat) : List Nat :=
  (List.range table.length).foldl
    (fun result i =>
      blendList result (pshufb (table.getD i []) idx)
        (pcmpeqb (List.replicate 16 (16 * i)) (pandBytes (List.replicate 16 0xF0) idx)))
    defaults

/-- Scalar fallback: the result buffer is pre-filled with the defaults and
the helper overwrites byte `i` when `indicies[i] / 16` is in range. -/
def tableLookupFallback (defaults : List Nat) (table : List (List Nat)) (idx : List Nat) : List Nat :=
  (List.range 16).foldl
    (fun result i =>
      if idx.getD i 0 / 16 < table.length then
        result.set i ((table.getD (idx.getD i 0 / 16) []).getD (idx.getD i 0 % 16) 0)
      else result)
    defaults

/-- The specified lookup: `result[i] = table[k][m]` with `k = indices[i]/16`,
`m = indices[i] mod 16` when `k < table_size`, else `defaults[i]`. -/
def tableLookupSpec (defaults : List Nat) (table : List (List Nat)) (idx : List Nat) : List Nat :=
  (List.range 16).map fun i =>
    if idx.getD i 0 / 16 < table.length then
      (table.getD (idx.getD i 0 / 16) []).getD (idx.getD i 0 % 16) 0
    else defaults.getD i 0

theorem getD_map (f : Nat → Nat) :
    ∀ (l : List Nat) (i : Nat), i < l.length → (l.map f).getD i 0 = f (l.getD i 0) := by
  intro l
  induction l with
  | nil =>
      intro i h
      simp at h
  | cons x r ih =>
      intro i h
      cases i with
      | zero => rfl
      | succ n =>
          simp only [List.map_cons, List.getD_cons_succ]
          exact ih n (by simpa using h)

theorem getD_zipWith (f : Nat → Nat → Nat) :
    ∀ (a b : List Nat) (i : Nat), i < a.length → i < b.length →
      (List.zipWith f a b).getD i 0 = f (a.getD i 0) (b.getD i 0) := by
  intro a
  induction a with
  | nil =>
      intro b i h1 h2
      simp at h1
  | cons x r ih =>
      intro b i h1 h2
      cases b with
      | nil => simp at h2
      | cons y s =>
          cases i with
          | zero => rfl
          | succ n =>
              simp only [List.zipWith_cons_cons, List.getD_cons_succ]
              exact ih s n (by simpa using h1) (by simpa using h2)

theorem getD_blendList :
    ∀ (d s m : List Nat) (i : Nat), i < d.length → i < s.length → i < m.length →
      (blendList d s m).getD i 0 =
        if 128 ≤ m.getD i 0 then s.getD i 0 else d.getD i 0 := by
  intro d
  induction d with
  | nil =>
      intro s m i h1 h2 h3
      simp at h1
  | cons x r ih =>
      intro s m i h1 h2 h3
      cases s with
      | nil => simp at h2
      | cons y ss =>
          cases m with
          | nil => simp at h3
          | cons z ms =>
              cases i with
              | zero => rfl
              | succ n =>
                  show (blendList r ss ms).getD n 0 = _
                  simp only [List.getD_cons_succ]
                  exact ih ss ms n (by simpa using h1) (by simpa using h2) (by simpa using h3)

theorem blendList_length :
    ∀ d s m : List Nat, (blendList d s m).length = min d.length (min s.length m.length) := by
  intro d
  induction d with
  | nil => intro s m; simp [blendList]
  | cons x r ih =>
      intro s m
      cases s with
      | nil => simp [blendList]
      | cons y ss =>
          cases m with
          | nil => simp [blendList]
          | cons z ms =>
              show (blendList r ss ms).length + 1 = _
              rw [ih ss ms]
              simp only [List.length_cons]
              omega

theorem getD_rep (n c i : Nat) (h : i < n) : (List.replicate n c).getD i 0 = c := by
  rw [List.getD_eq_getElem?_getD, List.getElem?_replicate]
  simp [h]

theorem getD_range (n b : Nat) (hb : b < n) : (List.range n).getD b 0 = b := by
  rw [List.getD_eq_getElem?_getD, List.getElem?_range hb]
  rfl

theorem getD_map_range (f : Nat → Nat) (n b : Nat) (hb : b < n) :
    ((List.range n).map f).getD b 0 = f b := by
  rw [getD_map f _ b (by simpa using hb), getD_range n b hb]

theorem getD_set (l : List Nat) (i b v : Nat) (hb : b < l.length) :
    (l.set i v).getD b 0 = if i = b then v else l.getD b 0 := by
  by_cases h : i = b
  · subst h
    rw [if_pos rfl, List.getD_eq_getElem?_getD, List.getElem?_set_self hb]
    rfl
  · rw [if_neg h, List.getD_eq_getElem?_getD, List.getElem?_set_ne h,
      ← List.getD_eq_getElem?_getD]

theorem list_eq_of_getD :
    ∀ a b : List Nat, a.length = b.length →
      (∀ i, i < a.length → a.getD i 0 = b.getD i 0) → a = b := by
  intro a
  induction a with
  | nil =>
      intro b hl _
      cases b with
      | nil => rfl
      | cons y s => simp at hl
  | cons x r ih =>
      intro b hl h
      cases b with
      | nil => simp at hl
      | cons y s =>
          have h0 : x = y := by
            have := h 0 (by simp)
            simpa using this
          subst h0
          have hr : r = s := by
            apply ih s (by simpa using hl)
            intro i hi
            have := h (i + 1) (by simpa using Nat.succ_lt_succ hi)
            simpa using this
          rw [hr]

theorem getD_mem (l : List Nat) (i : Nat) (h : i < l.length) : l.getD i 0 ∈ l := by
  rw [List.getD_eq_getElem?_getD, List.getElem?_eq_getElem h]
  exact List.getElem_mem h

set_option maxRecDepth 4096 in
theorem and_240 : ∀ j, j < 256 → 240 &&& j = 16 * (j / 16) := by decide

theorem general_fold_length (table : List (List Nat)) (idx : List Nat) (hi : idx.length = 16) :
    ∀ (l : List Nat) (acc : List Nat), acc.length = 16 →
      (l.foldl (fun result i =>
          blendList result (pshufb (table.getD i []) idx)
            (pcmpeqb (List.replicate 16 (16 * i)) (pandBytes (List.replicate 16 0xF0) idx))) acc).length = 16 := by
  intro l
  induction l with
  | nil =>
      intro acc hacc
      simpa using hacc
  | cons i rest ih =>
      intro acc hacc
      rw [List.foldl_cons]
      apply ih
      rw [blendList_length]
      unfold pshufb pcmpeqb pandBytes
      simp [List.length_zipWith, hi, hacc]

theorem general_fold_getD (table : List (List Nat)) (idx : List Nat)
    (hi : idx.length = 16) (b : Nat) (hb : b < 16) (hj : idx.getD b 0 < 256) :
    ∀ (l : List Nat) (acc : List Nat), acc.length = 16 → (∀ i ∈ l, i < 8) →
      ((l.foldl (fun result i =>
          blendList result (pshufb (table.getD i []) idx)
            (pcmpeqb (List.replicate 16 (16 * i)) (pandBytes (List.replicate 16 0xF0) idx))) acc).getD b 0
        = if idx.getD b 0 / 16 ∈ l
          then (table.getD (idx.getD b 0 / 16) []).getD (idx.getD b 0 % 16) 0
          else acc.getD b 0) := by
  intro l
  induction l with
  | nil =>
      intro acc hacc _
      simp
  | cons i rest ih =>
      intro acc hacc hsmall
      have hlen' : (blendList acc (pshufb (table.getD i []) idx)
          (pcmpeqb (List.replicate 16 (16 * i)) (pandBytes (List.replicate 16 0xF0) idx))).length = 16 := by
        rw [blendList_length]
        unfold pshufb pcmpeqb pandBytes
        simp [List.length_zipWith, hi, hacc]
      have hmaskedb : (pandBytes (List.replicate 16 0xF0) idx).getD b 0
          = 16 * (idx.getD b 0 / 16) := by
        unfold pandBytes
        rw [getD_zipWith _ _ _ b (by simpa using hb) (by omega), getD_rep 16 _ b hb]
        exact and_240 _ hj
      have hcmpb : (pcmpeqb (List.replicate 16 (16 * i)) (pandBytes (List.replicate 16 0xF0) idx)).getD b 0
          = if 16 * i = 16 * (idx.getD b 0 / 16) then 255 else 0 := by
        unfold pcmpeqb
        rw [getD_zipWith _ _ _ b (by simpa using hb)
          (by unfold pandBytes; simp only [List.length_zipWith, List.length_replicate, hi]; omega),
          getD_rep 16 _ b hb, hmaskedb]
      have hstep : (blendList acc (pshufb (table.getD i []) idx)
          (pcmpeqb (List.replicate 16 (16 * i)) (pandBytes (List.replicate 16 0xF0) idx))).getD b 0
          = if i = idx.getD b 0 / 16
            then (table.getD (idx.getD b 0 / 16) []).getD (idx.getD b 0 % 16) 0
            else acc.getD b 0 := by
        rw [getD_blendList _ _ _ b (by omega)
          (by unfold pshufb; simp only [List.length_map, hi]; omega)
          (by unfold pcmpeqb pandBytes
              simp only [List.length_zipWith, List.length_replicate, hi]
              omega),
          hcmpb]
        by_cases he : i = idx.getD b 0 / 16
        · rw [if_pos (show (16 : Nat) * i = 16 * (idx.getD b 0 / 16) from by rw [he]),
            if_pos (show (128 : Nat) ≤ 255 by norm_num), if_pos he]
          have hile : i < 8 := hsmall i (by simp)
          have hjlt : idx.getD b 0 < 128 := by omega
          unfold pshufb
          rw [getD_map _ _ b (by omega), if_neg (by omega), he]
        · rw [if_neg (show ¬ ((16 : Nat) * i = 16 * (idx.getD b 0 / 16)) from
              fun hh => he (by omega)),
            if_neg (show ¬ ((128 : Nat) ≤ 0) by norm_num), if_neg he]
      rw [List.foldl_cons, ih _ hlen' (fun x hx => hsmall x (by simp [hx])), hstep]
      by_cases h1 : idx.getD b 0 / 16 ∈ rest
      · rw [if_pos h1, if_pos (List.mem_cons_of_mem _ h1)]
      · rw [if_neg h1]
        by_cases h2 : i = idx.getD b 0 / 16
        · rw [if_pos h2, if_pos (List.mem_cons.2 (Or.inl h2.symm))]
        · rw [if_neg h2, if_neg (by
            simp only [List.mem_cons]
            push_neg
            exact ⟨fun hh => h2 hh.symm, h1⟩)]

theorem fallback_fold_length (table : List (List Nat)) (idx : List Nat) :
    ∀ (l : List Nat) (acc : List Nat), acc.length = 16 →
      (l.foldl (fun result i =>
          if idx.getD i 0 / 16 < table.length then
            result.set i ((table.getD (idx.getD i 0 / 16) []).getD (idx.getD i 0 % 16) 0)
          else result) acc).length = 16 := by
  intro l
  induction l with
  | nil =>
      intro acc hacc
      simpa using hacc
  | cons i rest ih =>
      intro acc hacc
      rw [List.foldl_cons]
      apply ih
      split <;> simp [List.length_set, hacc]

theorem fallback_fold_getD (table : List (List Nat)) (idx : List Nat) (b : Nat) (hb : b < 16) :
    ∀ (l : List Nat) (acc : List Nat), acc.length = 16 →
      ((l.foldl (fun result i =>
          if idx.getD i 0 / 16 < table.length then
            result.set i ((table.getD (idx.getD i 0 / 16) []).getD (idx.getD i 0 % 16) 0)
          else result) acc).getD b 0
        = if b ∈ l ∧ idx.getD b 0 / 16 < table.length
          then (table.getD (idx.getD b 0 / 16) []).getD (idx.getD b 0 % 16) 0
          else acc.getD b 0) := by
  intro l
  induction l with
  | nil =>
      intro acc hacc
      simp
  | cons i rest ih =>
      intro acc hacc
      have hlen' : (if idx.getD i 0 / 16 < table.length then
          acc.set i ((table.getD (idx.getD i 0 / 16) []).getD (idx.getD i 0 % 16) 0)
        else acc).length = 16 := by
        split <;> simp [List.length_set, hacc]
      have hstep : (if idx.getD i 0 / 16 < table.length then
          acc.set i ((table.getD (idx.getD i 0 / 16) []).getD (idx.getD i 0 % 16) 0)
        else acc).getD b 0
          = if i = b ∧ idx.getD b 0 / 16 < table.length
            then (table.getD (idx.getD b 0 / 16) []).getD (idx.getD b 0 % 16) 0
            else acc.getD b 0 := by
        by_cases hib : i = b
        · subst hib
          by_cases hc : idx.getD i 0 / 16 < table.length
          · rw [if_pos hc, getD_set _ _ _ _ (by omega), if_pos rfl, if_pos ⟨rfl, hc⟩]
          · rw [if_neg hc, if_neg (fun hh => hc hh.2)]
        · by_cases hc : idx.getD i 0 / 16 < table.length
          · rw [if_pos hc, getD_set _ _ _ _ (by omega), if_neg hib, if_neg (fun hh => hib hh.1)]
          · rw [if_neg hc, if_neg (fun hh => hib hh.1)]
      rw [List.foldl_cons, ih _ hlen', hstep]
      by_cases h1 : b ∈ rest ∧ idx.getD b 0 / 16 < table.length
      · rw [if_pos h1, if_pos ⟨List.mem_cons_of_mem _ h1.1, h1.2⟩]
      · rw [if_neg h1]
        by_cases h2 : i = b ∧ idx.getD b 0 / 16 < table.length
        · rw [if_pos h2, if_pos ⟨List.mem_cons.2 (Or.inl h2.1.symm), h2.2⟩]
        · rw [if_neg h2, if_neg (fun hh =>
            (List.mem_cons.1 hh.1).elim (fun he => h2 ⟨he.symm, hh.2⟩)
              (fun hm => h1 ⟨hm, hh.2⟩))]

/-- C7: for every defaults vector, every table of 1 to 4 vectors and every
indices byte vector, each of the emitted `VectorTableLookup` paths (the SSSE3
zero-defaults size-1 path, the SSE4.1 size-1 path, the SSE4.1 zero-defaults
size-2 path, the general SSE4.1 path and the scalar-helper fallback) returns
`table[indices[i]/16][indices[i] mod 16]` at byte `i` when `indices[i]/16`
is within the table, and `defaults[i]` otherwise. -/
theorem tableLookup_all_paths (defaults idx : List Nat) (table : List (List Nat))
    (hd : defaults.length = 16) (hi : idx.length = 16) (hib : ∀ j ∈ idx, j < 256)
    (ht1 : 1 ≤ table.length) (ht4 : table.length ≤ 4) :
    (∀ t0, table = [t0] →
      tableLookupSSSE3Zero1 t0 idx = tableLookupSpec (List.replicate 16 0) table idx) ∧
    (∀ t0, table = [t0] →
      tableLookupSSE41Size1 defaults t0 idx = tableLookupSpec defaults table idx) ∧
    (∀ t0 t1, table = [t0, t1] →
      tableLookupSSE41Zero2 t0 t1 idx = tableLookupSpec (List.replicate 16 0) table idx) ∧
    tableLookupSSE41General defaults table idx = tableLookupSpec defaults table idx ∧
    tableLookupFallback defaults table idx = tableLookupSpec defaults table idx := by
  have hbyte : ∀ b, b < 16 → idx.getD b 0 < 256 := fun b hb =>
    hib _ (getD_mem idx b (by omega))
  have hspeclen : ∀ (dflt : List Nat) (tbl : List (List Nat)),
      (tableLookupSpec dflt tbl idx).length = 16 := by
    intro dflt tbl
    unfold tableLookupSpec
    simp
  have hspec : ∀ (dflt : List Nat) (tbl : List (List Nat)) (b : Nat), b < 16 →
      (tableLookupSpec dflt tbl idx).getD b 0
        = if idx.getD b 0 / 16 < tbl.length then
            (tbl.getD (idx.getD b 0 / 16) []).getD (idx.getD b 0 % 16) 0
          else dflt.getD b 0 := by
    intro dflt tbl b hb
    unfold tableLookupSpec
    rw [getD_map_range _ 16 b hb]
  refine ⟨?_, ?_, ?_, ?_, ?_⟩
  · rintro t0 rfl
    have hL : (tableLookupSSSE3Zero1 t0 idx).length = 16 := by
      unfold tableLookupSSSE3Zero1 pshufb paddusb
      simp [List.length_zipWith, hi]
    apply list_eq_of_getD
    · rw [hL, hspeclen]
    · intro b hb0
      have hb : b < 16 := hL ▸ hb0
      have hj := hbyte b hb
      rw [hspec _ _ b hb]
      unfold tableLookupSSSE3Zero1 pshufb
      rw [getD_map _ _ b (by unfold paddusb; simp only [List.length_zipWith,
        List.length_replicate, hi]; omega)]
      unfold paddusb
      rw [getD_zipWith _ _ _ b (by omega) (by simpa using hb), getD_rep 16 _ b hb]
      simp only [List.length_singleton]
      rcases Nat.lt_or_ge (idx.getD b 0) 16 with hc | hc
      · rw [if_neg (by omega), if_pos (by omega)]
        have h16 : min (idx.getD b 0 + 0x70) 255 % 16 = idx.getD b 0 % 16 := by omega
        have hdiv : idx.getD b 0 / 16 = 0 := by omega
        rw [h16, hdiv]
        rfl
      · rw [if_pos (by omega), if_neg (by omega), getD_rep 16 0 b hb]
  · rintro t0 rfl
    have hL : (tableLookupSSE41Size1 defaults t0 idx).length = 16 := by
      unfold tableLookupSSE41Size1 pshufb paddusb
      rw [blendList_length]
      simp [List.length_zipWith, hi, hd]
    apply list_eq_of_getD
    · rw [hL, hspeclen]
    · intro b hb0
      have hb : b < 16 := hL ▸ hb0
      have hj := hbyte b hb
      rw [hspec _ _ b hb]
      unfold tableLookupSSE41Size1
      rw [getD_blendList _ _ _ b
        (by unfold pshufb; simp only [List.length_map, hi]; omega)
        (by omega)
        (by unfold paddusb; simp only [List.length_zipWith, List.length_replicate, hi]; omega)]
      unfold paddusb
      rw [getD_zipWith _ _ _ b (by omega) (by simpa using hb), getD_rep 16 _ b hb]
      unfold pshufb
      rw [getD_map _ _ b (by omega)]
      simp only [List.length_singleton]
      rcases Nat.lt_or_ge (idx.getD b 0) 16 with hc | hc
      · rw [if_neg (by omega), if_neg (by omega), if_pos (by omega)]
        have hdiv : idx.getD b 0 / 16 = 0 := by omega
        rw [hdiv]
        rfl
      · rw [if_pos (by omega), if_neg (by omega)]
  · rintro t0 t1 rfl
    have hL : (tableLookupSSE41Zero2 t0 t1 idx).length = 16 := by
      unfold tableLookupSSE41Zero2 pshufb paddusb
      rw [blendList_length]
      simp [List.length_zipWith, hi]
    apply list_eq_of_getD
    · rw [hL, hspeclen]
    · intro b hb0
      have hb : b < 16 := hL ▸ hb0
      have hj := hbyte b hb
      rw [hspec _ _ b hb]
      unfold tableLookupSSE41Zero2
      rw [getD_blendList _ _ _ b
        (by unfold pshufb paddusb; simp only [List.length_map, List.length_zipWith,
          List.length_replicate, hi]; omega)
        (by unfold pshufb paddusb; simp only [List.length_map, List.length_zipWith,
          List.length_replicate, hi]; omega)
        (by unfold paddusb; simp only [List.length_zipWith, List.length_replicate, hi]; omega)]
      unfold pshufb
      rw [getD_map _ _ b (by unfold paddusb; simp only [List.length_zipWith,
          List.length_replicate, hi]; omega),
        getD_map _ _ b (by unfold paddusb; simp only [List.length_zipWith,
          List.length_replicate, hi]; omega)]
      unfold paddusb
      rw [getD_zipWith _ _ _ b (by omega) (by simpa using hb),
        getD_zipWith _ _ _ b (by omega) (by simpa using hb),
        getD_rep 16 _ b hb, getD_rep 16 _ b hb]
      simp only [List.length_cons, List.length_nil]
      rcases Nat.lt_or_ge (idx.getD b 0) 16 with hc | hc
      · rw [if_neg (by omega), if_neg (by omega), if_pos (by omega)]
        have h16 : min (idx.getD b 0 + 0x70) 255 % 16 = idx.getD b 0 % 16 := by omega
        have hdiv : idx.getD b 0 / 16 = 0 := by omega
        rw [h16, hdiv]
        rfl
      · rcases Nat.lt_or_ge (idx.getD b 0) 32 with hc2 | hc2
        · rw [if_pos (by omega), if_neg (by omega), if_pos (by omega)]
          have h16 : min (idx.getD b 0 + 0x60) 255 % 16 = idx.getD b 0 % 16 := by omega
          have hdiv : idx.getD b 0 / 16 = 1 := by omega
          rw [h16, hdiv]
          rfl
        · rw [if_pos (by omega), if_pos (by omega), if_neg (by omega), getD_rep 16 0 b hb]
  · have hL : (tableLookupSSE41General defaults table idx).length = 16 := by
      unfold tableLookupSSE41General
      rw [general_fold_length table idx hi _ defaults hd]
    apply list_eq_of_getD
    · rw [hL, hspeclen]
    · intro b hb0
      have hb : b < 16 := hL ▸ hb0
      have hj := hbyte b hb
      rw [hspec _ _ b hb]
      unfold tableLookupSSE41General
      rw [general_fold_getD table idx hi b hb hj _ defaults hd
        (fun i hi2 => by have := List.mem_range.1 hi2; omega)]
      by_cases hc : idx.getD b 0 / 16 < table.length
      · rw [if_pos (List.mem_range.2 hc), if_pos hc]
      · rw [if_neg (fun hm => hc (List.mem_range.1 hm)), if_neg hc]
  · have hL : (tableLookupFallback defaults table idx).length = 16 := by
      unfold tableLookupFallback
      rw [fallback_fold_length table idx _ defaults hd]
    apply list_eq_of_getD
    · rw [hL, hspeclen]
    · intro b hb0
      have hb : b < 16 := hL ▸ hb0
      rw [hspec _ _ b hb]
      unfold tableLookupFallback
      rw [fallback_fold_getD table idx b hb _ defaults hd]
      by_cases hc : idx.getD b 0 / 16 < table.length
      · rw [if_pos ⟨List.mem_range.2 hb, hc⟩, if_pos hc]
      · rw [if_neg (fun hh => hc hh.2), if_neg hc]

theorem tableLookup_all_paths_witness :
    tableLookupSSE41General (List.replicate 16 7)
        [[10, 11, 12, 13, 14, 15, 16, 17, 18, 19, 20, 21, 22, 23, 24, 25]]
        [0, 5, 18, 200, 15, 16, 31, 32, 127, 128, 255, 1, 2, 3, 4, 15]
      = tableLookupSpec (List.replicate 16 7)
        [[10, 11, 12, 13, 14, 15, 16, 17, 18, 19, 20, 21, 22, 23, 24, 25]]
        [0, 5, 18, 200, 15, 16, 31, 32, 127, 128, 255, 1, 2, 3, 4, 15] :=
  (tableLookup_all_paths (List.replicate 16 7)
    [0, 5, 18, 200, 15, 16, 31, 32, 127, 128, 255, 1, 2, 3, 4, 15]
    [[10, 11, 12, 13, 14, 15, 16, 17, 18, 19, 20, 21, 22, 23, 24, 25]]
    (by decide) (by decide) (by decide) (by decide) (by decide)).2.2.2.1

/-! ## `VectorBroadcastLower8` -/

/-- `vpbroadcastb xmm, xmm`: byte 0 replicated into all 16 bytes. -/
def vpbroadcastb (a : List Nat) : List Nat := List.replicate 16 (a.getD 0 0)

/-- `movq xmm, xmm` (and `vmovq`): keep the low 8 bytes, zero the upper 8. -/
def movqXmm (a : List Nat) : List Nat := a.take 8 ++ List.replicate 8 0

/-- `punpcklbw a, b`: interleave the low 8 bytes of the two operands. -/
def punpcklbw (a b : List Nat) : List Nat :=
  [a.getD 0 0, b.getD 0 0, a.getD 1 0, b.getD 1 0,
   a.getD 2 0, b.getD 2 0, a.getD 3 0, b.getD 3 0,
   a.getD 4 0, b.getD 4 0, a.getD 5 0, b.getD 5 0,
   a.getD 6 0, b.getD 6 0, a.getD 7 0, b.getD 7 0]

/-- `pshuflw xmm, xmm, imm`: the four two-bit fields of `imm` select among
the low four words; the upper eight bytes pass through unchanged. -/
def pshuflw (imm : Nat) (a : List Nat) : List Nat :=
  [a.getD (2 * (imm % 4)) 0, a.getD (2 * (imm % 4) + 1) 0,
   a.getD (2 * (imm / 4 % 4)) 0, a.getD (2 * (imm / 4 % 4) + 1) 0,
   a.getD (2 * (imm / 16 % 4)) 0, a.getD (2 * (imm / 16 % 4) + 1) 0,
   a.getD (2 * (imm / 64 % 4)) 0, a.getD (2 * (imm / 64 % 4) + 1) 0]
  ++ a.drop 8

/-- `EmitX64::EmitVectorBroadcastLower8`: on AVX2, `vpbroadcastb` then
`vmovq`; on SSSE3, `pshufb` with an all-zero mask then `movq`; otherwise
`punpcklbw a, a` followed by `pshuflw a, a, 0`, with no zeroing of the
upper half. -/
def emitVectorBroadcastLower8 (avx2 ssse3 : Bool) (a : List Nat) : List Nat :=
  if avx2 then movqXmm (vpbroadcastb a)
  else if ssse3 then movqXmm (pshufb a (List.replicate 16 0))
  else pshuflw 0 (punpcklbw a a)

/-- C1 counterexample: not every feature-multiplexed vector opcode has
agreeing lowerings. On an input whose byte 4 is nonzero, the AVX2 and SSSE3
paths of `VectorBroadcastLower8` zero the upper 64 bits of the result while
the SSE2 path leaves the interleaved input bytes 4-7 there, so the three
CPU-feature-gated lowerings of this opcode do not produce the same 128-bit
bit pattern. -/
theorem broadcastLower8_paths_disagree :
    emitVectorBroadcastLower8 true false
        [0, 0, 0, 0, 1, 0, 0, 0, 0, 0, 0, 0, 0, 0, 0, 0]
      = emitVectorBroadcastLower8 false true
        [0, 0, 0, 0, 1, 0, 0, 0, 0, 0, 0, 0, 0, 0, 0, 0] ∧
    emitVectorBroadcastLower8 false false
        [0, 0, 0, 0, 1, 0, 0, 0, 0, 0, 0, 0, 0, 0, 0, 0]
      ≠ emitVectorBroadcastLower8 true false
        [0, 0, 0, 0, 1, 0, 0, 0, 0, 0, 0, 0, 0, 0, 0, 0] := by
  decide

end Dynarmic
